import Mathlib

/-!
# Verification of go-metadium's explorer trace-export subsystem

This development embeds, in Lean 4, the two subsystems of the repository's
explorer export path:

* the `blockCallsTracer` call-frame state machine
  (`eth/tracers/native/block_calls.go`, given as `src/unnamed/part_002`), and
* the internal-transaction extraction / block-export hook
  (`src/internal/explorer/db_export.go`).

Machine integers are modelled as `Nat` (addresses are 160-bit identifiers,
hashes 256-bit identifiers; none of the verified properties depend on
overflow, and none of the source arithmetic can overflow on the values in
question).  Go `error` values are modelled as `Option String`; Go runtime
panics (nil-pointer dereference, index out of range) are modelled by
functions returning `Option _`, `none` meaning the Go program crashes.
-/

namespace Metadium

/-! ## Hex rendering (go-ethereum `common/hexutil`)

`db_export.go` renders a frame's value with `(*hexutil.Big).String()` and the
tracer marshals numbers through `hexutil`.  These helpers come from the
go-ethereum library vendored by this repository (not under `src/`); their
documented behaviour is a lowercase hexadecimal rendering with `0x` prefix,
zero rendered as `0x0`, no leading zero digits (`hexutil.EncodeBig`). -/

/-- One lowercase hex digit. -/
def hexDigitChar (n : Nat) : Char :=
  if n < 10 then Char.ofNat (48 + n) else Char.ofNat (87 + n)

/-- Minimal big-endian hex digit list of a natural number (`0` ↦ `['0']`). -/
def hexDigits (n : Nat) : List Char :=
  if _h : n < 16 then [hexDigitChar n]
  else hexDigits (n / 16) ++ [hexDigitChar (n % 16)]
termination_by n
decreasing_by
  exact Nat.div_lt_self (by omega) (by omega)

/-- `hexutil.EncodeBig` / `(*hexutil.Big).String()`: `0x`-prefixed lowercase
hex, zero rendered as `0x0`. -/
def hexStringOfNat (n : Nat) : String :=
  "0x" ++ String.mk (hexDigits n)

/-- Decimal rendering of a natural number (what the spec asserts the code
stores; provided for comparison). -/
def decimalStringOfNat (n : Nat) : String :=
  Nat.repr n

/-! ## The decoded call-frame model (`callFrame0`, db_export.go lines 29–43)

`db_export.go` decodes the stored trace bytes into `[][]callFrame0`, where
`callFrame0` retains only five of the serialized fields:

```
type callFrame0 struct {
    From       common.Address  `json:"from"`
    To         *common.Address `json:"to,omitempty"`
    Calls      []callFrame0    `json:"calls,omitempty"`
    Value      *hexutil.Big    `json:"value,omitempty"`
    TypeString string          `json:"type"`
}
```

Addresses are natural numbers (`< 2^160`); the zero address is `0`.
`To` and `Value` are pointers, hence `Option`. -/

inductive CallFrame0 : Type where
  | mk (fromAddr : Nat) (toAddr : Option Nat) (calls : List CallFrame0)
      (value : Option Nat) (typeString : String)

def CallFrame0.fromAddr : CallFrame0 → Nat
  | .mk a _ _ _ _ => a

def CallFrame0.toAddr : CallFrame0 → Option Nat
  | .mk _ t _ _ _ => t

def CallFrame0.calls : CallFrame0 → List CallFrame0
  | .mk _ _ c _ _ => c

def CallFrame0.value : CallFrame0 → Option Nat
  | .mk _ _ _ v _ => v

def CallFrame0.typeString : CallFrame0 → String
  | .mk _ _ _ _ s => s

/-- An extracted internal-transaction row (`INSERT INTO internal_transactions`,
db_export.go lines 50–51).  `fromAddr`/`toAddr` are stored through
`common.Address.Hex()`, which renders the address injectively, so they are
modelled by the address value itself; `value` is the string the code computes
(`frame.Value.String()`), kept as a string because its exact form is claimed
by the spec. -/
structure InternalTx : Type where
  txHash : Nat
  blockNumber : Int
  blockHash : Nat
  txIndex : Nat
  callIndex : Nat
  fromAddr : Nat
  toAddr : Nat
  value : String
deriving DecidableEq, Repr

/-! ## navigateCallFrame (db_export.go lines 45–59)

```
func navigateCallFrame(block *types.Block, tx_index int, call_index *int, frame callFrame0) {
    emptyAddress := common.Address{}
    if frame.TypeString != "Call" || frame.From == emptyAddress || frame.To == nil ||
        frame.Value.ToInt().Cmp(common.Big0) == 0 {
        return
    }
    _, err := explorerDb.Exec("INSERT INTO internal_transactions ...",
        block.Transactions()[tx_index].Hash().Hex(), block.Number().Int64(),
        block.Hash().Hex(), tx_index, call_index, frame.From.Hex(),
        frame.To.Hex(), frame.Value.String())
    *call_index += 1
    ...
    for _, call := range frame.Calls {
        navigateCallFrame(block, tx_index, call_index, call)
    }
}
```

The Lean embedding returns the emitted rows and the final `call_index`.
Two Go runtime panics are reachable and modelled as `none`:

* `frame.Value.ToInt().Cmp(...)` dereferences a nil `*hexutil.Big` when the
  guard reaches the value test (type is `"Call"`, `from` nonzero, `to`
  present) but `value` is absent;
* `block.Transactions()[tx_index]` is out of range.

Note the early `return`: a frame failing the guard is dropped *together with
its entire subtree* — the loop over `frame.Calls` is never reached. -/

mutual

def navigateCallFrame (blockNumber : Int) (blockHash : Nat) (txHashes : List Nat)
    (txIndex : Nat) (callIndex : Nat) : CallFrame0 → Option (List InternalTx × Nat)
  | .mk fromAddr toAddr calls value typeString =>
    if typeString ≠ "Call" ∨ fromAddr = 0 ∨ toAddr = none then
      some ([], callIndex)
    else
      match value with
      | none => none          -- Go: nil (*hexutil.Big).ToInt().Cmp → nil dereference panic
      | some v =>
        if v = 0 then some ([], callIndex)
        else
          match txHashes[txIndex]? with
          | none => none      -- Go: block.Transactions()[tx_index] index out of range
          | some h =>
            let row : InternalTx :=
              { txHash := h, blockNumber := blockNumber, blockHash := blockHash
                txIndex := txIndex, callIndex := callIndex
                fromAddr := fromAddr, toAddr := toAddr.getD 0
                value := hexStringOfNat v }
            match navigateCalls blockNumber blockHash txHashes txIndex (callIndex + 1) calls with
            | none => none
            | some (rows, ci) => some (row :: rows, ci)

def navigateCalls (blockNumber : Int) (blockHash : Nat) (txHashes : List Nat)
    (txIndex : Nat) (callIndex : Nat) : List CallFrame0 → Option (List InternalTx × Nat)
  | [] => some ([], callIndex)
  | f :: rest =>
    match navigateCallFrame blockNumber blockHash txHashes txIndex callIndex f with
    | none => none
    | some (rows, ci) =>
      match navigateCalls blockNumber blockHash txHashes txIndex ci rest with
      | none => none
      | some (rows2, ci2) => some (rows ++ rows2, ci2)

end

/-! ## Qualification predicates -/

/-- The guard actually implemented by `navigateCallFrame`: type `"Call"`,
nonzero `from`, *present* `to` (the code never compares `to` with the zero
address), and value distinct from zero.  On frames whose `value` is absent
the code does not evaluate to a truth value at all (it crashes); for the
predicate we follow the convention that an absent value does not qualify. -/
def codeQualifies (f : CallFrame0) : Bool :=
  f.typeString == "Call" && f.fromAddr != 0 && f.toAddr.isSome && f.value.getD 0 != 0

/-- The qualification rule as the spec states it: type `Call`, nonzero
`from`, `to` present *and nonzero*, `value` present and strictly positive. -/
def specQualifies (f : CallFrame0) : Bool :=
  f.typeString == "Call" && f.fromAddr != 0 && f.toAddr.getD 0 != 0 &&
    f.toAddr.isSome && f.value.getD 0 != 0

mutual

/-- A frame is well formed for extraction when no frame of its tree makes the
guard dereference an absent `value`: whenever type is `"Call"`, `from` is
nonzero and `to` is present, `value` must be present.  (Frames produced by
the repository's own tracer satisfy this: the tracer always records the
engine-supplied value for `CALL`-typed frames.) -/
def wfFrame : CallFrame0 → Bool
  | .mk fromAddr toAddr calls value typeString =>
    (!(typeString == "Call" && fromAddr != 0 && toAddr.isSome) || value.isSome) &&
      wfFrames calls

def wfFrames : List CallFrame0 → Bool
  | [] => true
  | c :: cs => wfFrame c && wfFrames cs

end

mutual

/-- Depth-first pre-order list of the frames the extractor actually reaches
and emits: a frame is listed iff it satisfies the code's guard, and its
children are explored only in that case (mirroring the early `return`). -/
def qualFrames : CallFrame0 → List CallFrame0
  | .mk fromAddr toAddr calls value typeString =>
    if codeQualifies (.mk fromAddr toAddr calls value typeString) then
      .mk fromAddr toAddr calls value typeString :: qualFramesList calls
    else []

def qualFramesList : List CallFrame0 → List CallFrame0
  | [] => []
  | c :: cs => qualFrames c ++ qualFramesList cs

end

mutual

/-- All frames of a tree in depth-first pre-order (no pruning): the
visitation order the spec describes. -/
def allFrames : CallFrame0 → List CallFrame0
  | .mk fromAddr toAddr calls value typeString =>
    .mk fromAddr toAddr calls value typeString :: allFramesList calls

def allFramesList : List CallFrame0 → List CallFrame0
  | [] => []
  | c :: cs => allFrames c ++ allFramesList cs

end

mutual

/-- Child-index paths (relative to one tree root) of the frames the extractor
emits, in emission order: the empty path is listed iff the root satisfies the
code's guard, and children are explored only in that case. -/
def qualPaths : CallFrame0 → List (List Nat)
  | .mk fromAddr toAddr calls value typeString =>
    if codeQualifies (.mk fromAddr toAddr calls value typeString) then
      [] :: qualPathsList calls 0
    else []

def qualPathsList : List CallFrame0 → Nat → List (List Nat)
  | [], _ => []
  | c :: cs, i => (qualPaths c).map (i :: ·) ++ qualPathsList cs (i + 1)

end

/-- The frame reached by following a child-index path. -/
def frameAt : CallFrame0 → List Nat → Option CallFrame0
  | f, [] => some f
  | f, i :: p =>
    match f.calls[i]? with
    | none => none
    | some c => frameAt c p

/-- The claim's notion "the frame and all its ancestors pass the extractor's
guard": every node along the path (prefixes included, the addressed frame
itself included) satisfies `codeQualifies`. -/
def pathQualifies (f : CallFrame0) (p : List Nat) : Prop :=
  ∀ q, q <+: p → ∃ g, frameAt f q = some g ∧ codeQualifies g

/-- The internal-transaction row `navigateCallFrame` inserts for a frame. -/
def mkRow (blockNumber : Int) (blockHash txHash : Nat) (txIndex callIndex : Nat)
    (g : CallFrame0) : InternalTx :=
  { txHash := txHash, blockNumber := blockNumber, blockHash := blockHash
    txIndex := txIndex, callIndex := callIndex
    fromAddr := g.fromAddr, toAddr := g.toAddr.getD 0
    value := hexStringOfNat (g.value.getD 0) }

/-- Rows for a list of emitted frames, with consecutive `call_index` values
starting at `callIndex`. -/
def rowsFor (blockNumber : Int) (blockHash txHash : Nat) (txIndex : Nat) :
    Nat → List CallFrame0 → List InternalTx
  | _, [] => []
  | callIndex, g :: gs =>
    mkRow blockNumber blockHash txHash txIndex callIndex g ::
      rowsFor blockNumber blockHash txHash txIndex (callIndex + 1) gs

/-! ## The per-block extraction loop (db_export.go lines 80–85)

```
for ix, callstack := range callstacks {
    for _, frame := range callstack {
        call_index := int(0)
        navigateCallFrame(block, ix, &call_index, frame)
    }
}
```

Note `call_index` is re-initialised to `0` for every *top-level frame* of a
transaction's entry, not once per transaction.  (In traces produced by the
repository's tracer every entry is a two-element list: a zero dummy frame,
which never qualifies, followed by the transaction's root frame.) -/

def extractFrames (blockNumber : Int) (blockHash : Nat) (txHashes : List Nat)
    (txIndex : Nat) : List CallFrame0 → Option (List InternalTx)
  | [] => some []
  | f :: rest =>
    match navigateCallFrame blockNumber blockHash txHashes txIndex 0 f with
    | none => none
    | some (rows, _) =>
      match extractFrames blockNumber blockHash txHashes txIndex rest with
      | none => none
      | some rows2 => some (rows ++ rows2)

def extractStacksFrom (blockNumber : Int) (blockHash : Nat) (txHashes : List Nat)
    (ix : Nat) : List (List CallFrame0) → Option (List InternalTx)
  | [] => some []
  | stack :: rest =>
    match extractFrames blockNumber blockHash txHashes ix stack with
    | none => none
    | some rows =>
      match extractStacksFrom blockNumber blockHash txHashes (ix + 1) rest with
      | none => none
      | some rows2 => some (rows ++ rows2)

/-- The whole extraction pass over a decoded trace. -/
def extractTrace (blockNumber : Int) (blockHash : Nat) (txHashes : List Nat)
    (callstacks : List (List CallFrame0)) : Option (List InternalTx) :=
  extractStacksFrom blockNumber blockHash txHashes 0 callstacks

/-! ## Joint induction over the nested call-frame inductive -/

theorem frameListInduction (P : CallFrame0 → Prop) (Q : List CallFrame0 → Prop)
    (hmk : ∀ fromAddr toAddr calls value typeString, Q calls →
      P (.mk fromAddr toAddr calls value typeString))
    (hnil : Q [])
    (hcons : ∀ f l, P f → Q l → Q (f :: l)) :
    (∀ f, P f) ∧ (∀ l, Q l) := by
  have key : ∀ n, (∀ f : CallFrame0, sizeOf f ≤ n → P f) ∧
      (∀ l : List CallFrame0, sizeOf l ≤ n → Q l) := by
    intro n
    induction n with
    | zero =>
      constructor
      · intro f hf; cases f with
        | mk a t c v s => simp at hf
      · intro l hl
        cases l with
        | nil => exact hnil
        | cons x xs => simp at hl
    | succ n ih =>
      constructor
      · intro f hf
        cases f with
        | mk a t c v s =>
          apply hmk
          apply ih.2
          simp at hf
          omega
      · intro l hl
        cases l with
        | nil => exact hnil
        | cons x xs =>
          simp at hl
          exact hcons _ _ (ih.1 x (by omega)) (ih.2 xs (by omega))
  constructor
  · intro f; exact (key (sizeOf f)).1 f le_rfl
  · intro l; exact (key (sizeOf l)).2 l le_rfl

/-- Induction principle for a single frame: to prove `P` for every frame it
suffices to prove it assuming it for all children. -/
theorem CallFrame0.inductionOn (P : CallFrame0 → Prop)
    (h : ∀ f, (∀ c ∈ f.calls, P c) → P f) : ∀ f, P f := by
  have := frameListInduction P (fun l => ∀ c ∈ l, P c)
    (fun fa ta cs v ts hq => h _ (by simpa [CallFrame0.calls] using hq))
    (by simp) (by intro f l hf hl c hc; cases hc with
      | head => exact hf
      | tail _ hmem => exact hl c hmem)
  exact this.1

/-! ## Characterisation of the extraction pass -/

theorem rowsFor_length (blockNumber : Int) (bh h ti : Nat) :
    ∀ gs ci, (rowsFor blockNumber bh h ti ci gs).length = gs.length := by
  intro gs
  induction gs with
  | nil => intro ci; rfl
  | cons g gs ih => intro ci; simp [rowsFor, ih]

theorem rowsFor_append (blockNumber : Int) (bh h ti : Nat) :
    ∀ gs1 gs2 ci, rowsFor blockNumber bh h ti ci (gs1 ++ gs2) =
      rowsFor blockNumber bh h ti ci gs1 ++
        rowsFor blockNumber bh h ti (ci + gs1.length) gs2 := by
  intro gs1
  induction gs1 with
  | nil => intro gs2 ci; simp [rowsFor]
  | cons g gs ih =>
    intro gs2 ci
    simp only [List.cons_append, rowsFor, List.append_eq, ih, List.length_cons]
    have : ci + (gs.length + 1) = ci + 1 + gs.length := by omega
    rw [this]

theorem rowsFor_map_callIndex (blockNumber : Int) (bh h ti : Nat) :
    ∀ gs ci, (rowsFor blockNumber bh h ti ci gs).map (fun r => r.callIndex) =
      List.range' ci gs.length := by
  intro gs
  induction gs with
  | nil => intro ci; rfl
  | cons g gs ih => intro ci; simp [rowsFor, mkRow, ih, List.range']

/-- Master lemma: on well-formed frames, with the transaction hash in range,
`navigateCallFrame` never crashes and emits exactly the rows of the pruned
pre-order list `qualFrames`, with consecutive indices starting at the given
`call_index`. -/
theorem navigateCallFrame_eq_rowsFor (blockNumber : Int) (bh h : Nat)
    (ths : List Nat) (ti : Nat) (hh : ths[ti]? = some h) :
    ∀ f, wfFrame f = true → ∀ ci,
      navigateCallFrame blockNumber bh ths ti ci f =
        some (rowsFor blockNumber bh h ti ci (qualFrames f),
          ci + (qualFrames f).length) := by
  have main := frameListInduction
    (fun f => wfFrame f = true → ∀ ci,
      navigateCallFrame blockNumber bh ths ti ci f =
        some (rowsFor blockNumber bh h ti ci (qualFrames f),
          ci + (qualFrames f).length))
    (fun l => wfFrames l = true → ∀ ci,
      navigateCalls blockNumber bh ths ti ci l =
        some (rowsFor blockNumber bh h ti ci (qualFramesList l),
          ci + (qualFramesList l).length))
    ?_ ?_ ?_
  · exact main.1
  · intro fa ta cs v ts ihq hw ci
    simp only [wfFrame, Bool.and_eq_true] at hw
    by_cases hguard : ts ≠ "Call" ∨ fa = 0 ∨ ta = none
    · have hq : codeQualifies (.mk fa ta cs v ts) = false := by
        simp only [codeQualifies, CallFrame0.typeString, CallFrame0.fromAddr,
          CallFrame0.toAddr, CallFrame0.value]
        rcases hguard with hg | hg | hg
        · simp [hg]
        · simp [hg]
        · simp [hg]
      simp [navigateCallFrame, hguard, qualFrames, hq, rowsFor]
    · push_neg at hguard
      obtain ⟨hts, hfa, hta⟩ := hguard
      subst hts
      have hvsome : v.isSome := by
        have h1 := hw.1
        cases ta with
        | none => exact absurd rfl hta
        | some a =>
          cases v with
          | none => simp at h1; exact absurd h1 hfa
          | some _ => rfl
      obtain ⟨w, hv⟩ := Option.isSome_iff_exists.mp hvsome
      subst hv
      by_cases hw0 : w = 0
      · subst hw0
        have hq : codeQualifies (.mk fa ta cs (some 0) "Call") = false := by
          simp [codeQualifies, CallFrame0.value]
        simp [navigateCallFrame, hfa, hta, qualFrames, hq, rowsFor]
      · have hq : codeQualifies (.mk fa ta cs (some w) "Call") = true := by
          cases ta with
          | none => exact absurd rfl hta
          | some a =>
            simp [codeQualifies, CallFrame0.typeString, CallFrame0.fromAddr,
              CallFrame0.toAddr, CallFrame0.value, hfa, hw0]
        have hqf : qualFrames (.mk fa ta cs (some w) "Call") =
            .mk fa ta cs (some w) "Call" :: qualFramesList cs := by
          simp [qualFrames, hq]
        have hnav := ihq hw.2 (ci + 1)
        simp only [navigateCallFrame, hfa, hta, hh, hw0, hnav, hqf, rowsFor,
          ne_eq, not_true_eq_false, false_or, or_self, if_false, ite_false,
          List.length_cons]
        simp [mkRow, CallFrame0.fromAddr, CallFrame0.toAddr, CallFrame0.value,
          CallFrame0.typeString]
        omega
  · intro _ ci
    simp [navigateCalls, qualFramesList, rowsFor]
  · intro f l ihf ihl hw ci
    simp only [wfFrames, Bool.and_eq_true] at hw
    simp only [navigateCalls, ihf hw.1 ci, ihl hw.2, qualFramesList]
    rw [rowsFor_append]
    simp [List.length_append]
    omega

/-! ## Path characterisation of the emitted frames -/

theorem mem_of_getElemOpt {α : Type _} {l : List α} {j : Nat} {c : α}
    (h : l[j]? = some c) : c ∈ l := by
  induction l generalizing j with
  | nil => simp at h
  | cons x xs ih =>
    cases j with
    | zero => simp at h; simp [h]
    | succ j' =>
      simp only [List.getElem?_cons_succ] at h
      exact List.mem_cons_of_mem _ (ih h)

/-- The frame addressed by a path, with the root as default (total version of
`frameAt`; the default is only ever exposed on paths that address no frame). -/
def frameAtD (f : CallFrame0) (p : List Nat) : CallFrame0 :=
  (frameAt f p).getD f

theorem frameAt_nil (f : CallFrame0) : frameAt f [] = some f := rfl

theorem frameAt_cons (f : CallFrame0) (j : Nat) (p : List Nat) :
    frameAt f (j :: p) =
      match f.calls[j]? with
      | none => none
      | some c => frameAt c p := rfl

theorem pathQualifies_nil (f : CallFrame0) :
    pathQualifies f [] ↔ codeQualifies f = true := by
  constructor
  · intro hp
    obtain ⟨g, hg, hq⟩ := hp [] (List.nil_prefix)
    rw [frameAt_nil] at hg
    cases hg
    exact hq
  · intro hq q hpre
    rw [List.prefix_nil] at hpre
    subst hpre
    exact ⟨f, frameAt_nil f, hq⟩

theorem pathQualifies_cons (f : CallFrame0) (j : Nat) (p : List Nat) :
    pathQualifies f (j :: p) ↔
      codeQualifies f = true ∧ ∃ c, f.calls[j]? = some c ∧ pathQualifies c p := by
  constructor
  · intro hp
    have hroot := hp [] (List.nil_prefix)
    rw [frameAt_nil] at hroot
    obtain ⟨g, hg, hq⟩ := hroot
    cases hg
    refine ⟨hq, ?_⟩
    obtain ⟨c0, hc0, hq0⟩ := hp [j] ⟨p, rfl⟩
    rw [frameAt_cons] at hc0
    cases hcj : f.calls[j]? with
    | none => rw [hcj] at hc0; cases hc0
    | some c =>
      refine ⟨c, rfl, ?_⟩
      intro q hq'
      have := hp (j :: q) (by exact List.cons_prefix_cons.mpr ⟨rfl, hq'⟩)
      obtain ⟨g2, hg2, hq2⟩ := this
      rw [frameAt_cons, hcj] at hg2
      exact ⟨g2, hg2, hq2⟩
  · rintro ⟨hq, c, hc, hp⟩ q hpre
    cases q with
    | nil => exact ⟨f, frameAt_nil f, hq⟩
    | cons a q' =>
      obtain ⟨ha, hq'⟩ := List.cons_prefix_cons.mp hpre
      subst ha
      obtain ⟨g, hg, hgq⟩ := hp q' hq'
      refine ⟨g, ?_, hgq⟩
      rw [frameAt_cons, hc]
      exact hg

theorem mem_qualPathsList (l : List CallFrame0) :
    ∀ i p, p ∈ qualPathsList l i ↔
      ∃ j q c, p = (i + j) :: q ∧ l[j]? = some c ∧ q ∈ qualPaths c := by
  induction l with
  | nil =>
    intro i p
    simp [qualPathsList]
  | cons c cs ih =>
    intro i p
    simp only [qualPathsList, List.mem_append, List.mem_map, ih]
    constructor
    · rintro (⟨q, hq, rfl⟩ | ⟨j, q, c', rfl, hc', hq⟩)
      · exact ⟨0, q, c, by simp, by simp, hq⟩
      · exact ⟨j + 1, q, c', by rw [show i + 1 + j = i + (j + 1) by omega], by simpa using hc', hq⟩
    · rintro ⟨j, q, c', rfl, hc', hq⟩
      cases j with
      | zero =>
        left
        simp only [List.getElem?_cons_zero, Option.some.injEq] at hc'
        subst hc'
        exact ⟨q, hq, by simp⟩
      | succ j' =>
        right
        exact ⟨j', q, c', by rw [show i + (j' + 1) = i + 1 + j' by omega],
          by simpa using hc', hq⟩

theorem mem_qualPaths : ∀ (f : CallFrame0) (p : List Nat),
    p ∈ qualPaths f ↔ pathQualifies f p := by
  intro f
  induction f using CallFrame0.inductionOn with
  | h f ih =>
    intro p
    cases f with
    | mk fa ta cs v ts =>
      simp only [CallFrame0.calls] at ih
      by_cases hq : codeQualifies (.mk fa ta cs v ts) = true
      · rw [qualPaths, if_pos hq]
        cases p with
        | nil => simp [pathQualifies_nil, hq]
        | cons j p' =>
          simp only [List.mem_cons, reduceCtorEq, false_or,
            mem_qualPathsList cs 0, pathQualifies_cons, CallFrame0.calls]
          constructor
          · rintro ⟨j', q, c, hpe, hc, hqp⟩
            rw [show (0 : Nat) + j' = j' by omega] at hpe
            injection hpe with h1 h2
            subst h1; subst h2
            exact ⟨hq, c, hc, (ih c (mem_of_getElemOpt hc) _).mp hqp⟩
          · rintro ⟨-, c, hc, hqp⟩
            exact ⟨j, p', c, by rw [show (0 : Nat) + j = j by omega],
              hc, (ih c (mem_of_getElemOpt hc) p').mpr hqp⟩
      · rw [qualPaths, if_neg hq]
        simp only [List.not_mem_nil, false_iff]
        intro hp
        have := hp [] (List.nil_prefix)
        obtain ⟨g, hg, hgq⟩ := this
        rw [frameAt_nil] at hg
        cases hg
        exact hq hgq

theorem nodup_qualPathsList (l : List CallFrame0)
    (h : ∀ c ∈ l, (qualPaths c).Nodup) : ∀ i, (qualPathsList l i).Nodup := by
  induction l with
  | nil => intro i; simp [qualPathsList]
  | cons c cs ih =>
    intro i
    simp only [qualPathsList]
    apply List.Nodup.append
    · exact (h c (by simp)).map (fun a b hab => by
        simpa using hab)
    · exact ih (fun c' hc' => h c' (by simp [hc'])) (i + 1)
    · intro p hp1 hp2
      obtain ⟨q, hq, rfl⟩ := List.mem_map.mp hp1
      obtain ⟨j, q', c', hpe, -, -⟩ := (mem_qualPathsList cs (i + 1) _).mp hp2
      have : i = i + 1 + j := by
        have := List.head_eq_of_cons_eq hpe
        omega
      omega

theorem nodup_qualPaths : ∀ f : CallFrame0, (qualPaths f).Nodup := by
  intro f
  induction f using CallFrame0.inductionOn with
  | h f ih =>
    cases f with
    | mk fa ta cs v ts =>
      by_cases hq : codeQualifies (.mk fa ta cs v ts) = true
      · rw [qualPaths, if_pos hq]
        refine List.Nodup.cons ?_ ?_
        · intro hmem
          obtain ⟨j, q, c, hpe, -, -⟩ := (mem_qualPathsList cs 0 _).mp hmem
          cases hpe
        · exact nodup_qualPathsList cs
            (fun c hc => ih c (by simpa [CallFrame0.calls] using hc)) 0
      · rw [qualPaths, if_neg hq]
        exact List.nodup_nil

theorem map_frameAtD_qualPathsList (full : CallFrame0) :
    ∀ l i, (∀ j c, l[j]? = some c → full.calls[i + j]? = some c) →
      (∀ c ∈ l, (qualPaths c).map (frameAtD c) = qualFrames c) →
      (qualPathsList l i).map (frameAtD full) = qualFramesList l := by
  intro l
  induction l with
  | nil => intro i _ _; simp [qualPathsList, qualFramesList]
  | cons c cs ih =>
    intro i hidx hmap
    simp only [qualPathsList, qualFramesList, List.map_append, List.map_map]
    congr 1
    · have hc : full.calls[i]? = some c := by
        have := hidx 0 c (by simp)
        simpa using this
      calc ((qualPaths c).map (frameAtD full ∘ (i :: ·)))
          = (qualPaths c).map (frameAtD c) := by
            apply List.map_congr_left
            intro q hq
            have hpq := (mem_qualPaths c q).mp hq
            obtain ⟨g, hg, -⟩ := hpq q (List.prefix_refl q)
            simp only [Function.comp_apply, frameAtD, frameAt_cons, hc, hg,
              Option.getD_some]
        _ = qualFrames c := hmap c (by simp)
    · exact ih (i + 1)
        (fun j c' hj => by
          have := hidx (j + 1) c' (by simpa using hj)
          rwa [show i + (j + 1) = i + 1 + j by omega] at this)
        (fun c' hc' => hmap c' (by simp [hc']))

theorem qualFrames_eq_map_qualPaths : ∀ f : CallFrame0,
    (qualPaths f).map (frameAtD f) = qualFrames f := by
  intro f
  induction f using CallFrame0.inductionOn with
  | h f ih =>
    cases f with
    | mk fa ta cs v ts =>
      by_cases hq : codeQualifies (.mk fa ta cs v ts) = true
      · rw [qualPaths, if_pos hq, qualFrames, if_pos hq]
        simp only [List.map_cons]
        congr 1
        exact map_frameAtD_qualPathsList (.mk fa ta cs v ts) cs 0
          (fun j c hj => by simpa [CallFrame0.calls] using hj)
          (fun c hc => ih c (by simpa [CallFrame0.calls] using hc))
      · rw [qualPaths, if_neg hq, qualFrames, if_neg hq]
        rfl

theorem mem_rowsFor (blockNumber : Int) (bh h ti : Nat) :
    ∀ gs ci r, r ∈ rowsFor blockNumber bh h ti ci gs →
      ∃ g ∈ gs, ∃ k, r = mkRow blockNumber bh h ti k g := by
  intro gs
  induction gs with
  | nil => intro ci r hr; simp [rowsFor] at hr
  | cons g gs ih =>
    intro ci r hr
    simp only [rowsFor, List.mem_cons] at hr
    rcases hr with rfl | hr
    · exact ⟨g, by simp, ci, rfl⟩
    · obtain ⟨g', hg', k, hk⟩ := ih (ci + 1) r hr
      exact ⟨g', by simp [hg'], k, hk⟩

/-! ## Concrete frames used in counterexamples -/

/-- A frame that satisfies the spec's qualification rule in full. -/
def cexQualChild : CallFrame0 := .mk 1 (some 2) [] (some 3) "Call"

/-- A non-qualifying parent (`StaticCall`) holding a qualifying child. -/
def cexStaticParent : CallFrame0 := .mk 1 (some 2) [cexQualChild] (some 5) "StaticCall"

/-- A `Call` frame whose `to` is present but the zero address; the spec's
rule disqualifies it, the code's guard does not. -/
def cexToZero : CallFrame0 := .mk 1 (some 0) [] (some 5) "Call"

def cexC2leaf1 : CallFrame0 := .mk 3 (some 4) [] (some 7) "Call"
def cexC2mid : CallFrame0 := .mk 1 (some 2) [cexC2leaf1] (some 0) "Call"
def cexC2leaf2 : CallFrame0 := .mk 5 (some 6) [] (some 8) "Call"
def cexC2root : CallFrame0 := .mk 1 (some 2) [cexC2mid, cexC2leaf2] (some 5) "Call"

/-- A qualifying frame with value ten (hex `0xa` vs decimal `10`). -/
def cexValueTen : CallFrame0 := .mk 1 (some 2) [] (some 10) "Call"

/-! ## C1 -/

/-- C1, counterexample.  The claim "a record is emitted iff the frame's type
is Call, `from` is non-zero, `to` is present and non-zero, and `value` is
present and positive; every such frame produces exactly one record,
independent of its depth" fails in both directions on concrete inputs:
`cexQualChild` satisfies the spec's rule, sits at depth 1 under a
`StaticCall` parent, and produces no record (the extractor prunes the whole
subtree of a non-qualifying frame); `cexToZero` violates the spec's rule
(`to` is the present zero address) yet produces a record (the code never
compares `to` against the zero address). -/
theorem c1_counterexample :
    specQualifies cexQualChild = true ∧
    frameAt cexStaticParent [0] = some cexQualChild ∧
    navigateCallFrame 1 2 [77] 0 0 cexStaticParent = some ([], 0) ∧
    specQualifies cexToZero = false ∧
    navigateCallFrame 1 2 [77] 0 0 cexToZero =
      some ([{ txHash := 77, blockNumber := 1, blockHash := 2, txIndex := 0,
               callIndex := 0, fromAddr := 1, toAddr := 0,
               value := hexStringOfNat 5 }], 1) := by
  refine ⟨by simp [specQualifies, cexQualChild, CallFrame0.typeString,
      CallFrame0.fromAddr, CallFrame0.toAddr, CallFrame0.value], ?_, ?_, ?_, ?_⟩
  · simp [frameAt, cexStaticParent, CallFrame0.calls]
  · simp [navigateCallFrame, cexStaticParent]
  · simp [specQualifies, cexToZero, CallFrame0.toAddr]
  · simp [navigateCallFrame, navigateCalls, cexToZero]

/-- C1, amended: on well-formed trees (a `Call` frame with nonzero `from` and
present `to` always carries a value — true of all traces the repository's
tracer produces) and with the transaction hash in range, the extractor emits
a record for a frame exactly when the frame *and every ancestor on its path*
satisfy the code's guard (type `"Call"`, nonzero `from`, `to` present —
possibly zero — and value nonzero); each such frame produces exactly one
record (the emitted rows are in order-preserving bijection with the
duplicate-free list `qualPaths f` of qualifying paths). -/
theorem c1_amended (blockNumber : Int) (bh h : Nat) (ths : List Nat) (ti : Nat)
    (hh : ths[ti]? = some h) (f : CallFrame0) (hwf : wfFrame f = true) :
    navigateCallFrame blockNumber bh ths ti 0 f =
      some (rowsFor blockNumber bh h ti 0 ((qualPaths f).map (frameAtD f)),
        (qualPaths f).length) ∧
    (∀ p, p ∈ qualPaths f ↔ pathQualifies f p) ∧
    (qualPaths f).Nodup := by
  refine ⟨?_, fun p => mem_qualPaths f p, nodup_qualPaths f⟩
  have hmain := navigateCallFrame_eq_rowsFor blockNumber bh h ths ti hh f hwf 0
  rw [hmain, ← qualFrames_eq_map_qualPaths f]
  simp [List.length_map]

/-- Witness for `c1_amended` at a concrete tree and hash table. -/
theorem c1_amended_witness :
    (([77] : List Nat)[0]? = some 77 ∧ wfFrame cexStaticParent = true) ∧
    (navigateCallFrame 1 2 [77] 0 0 cexStaticParent =
      some (rowsFor 1 2 77 0 0 ((qualPaths cexStaticParent).map (frameAtD cexStaticParent)),
        (qualPaths cexStaticParent).length) ∧
    (∀ p, p ∈ qualPaths cexStaticParent ↔ pathQualifies cexStaticParent p) ∧
    (qualPaths cexStaticParent).Nodup) :=
  ⟨⟨by simp, by simp [cexStaticParent, cexQualChild, wfFrame, wfFrames]⟩,
    c1_amended 1 2 77 [77] 0 (by simp) cexStaticParent
      (by simp [cexStaticParent, cexQualChild, wfFrame, wfFrames])⟩

/-! ## C2 -/

/-- C2, counterexample.  The claim "the extractor visits every frame in
depth-first pre-order, and with `k` qualifying frames the callIndex values
are exactly `0..k-1`, including when non-qualifying frames have qualifying
descendants" fails on `cexC2root`: its tree holds three frames satisfying
the qualification rule (root, `cexC2leaf1`, `cexC2leaf2`), but the extractor
emits only two records (indices 0 and 1) — `cexC2leaf1` (from-address 3) is
never visited because its parent `cexC2mid` has value zero and the extractor
prunes that whole subtree. -/
theorem c2_counterexample :
    ((allFrames cexC2root).filter (fun g => specQualifies g)).length = 3 ∧
    navigateCallFrame 9 8 [77] 0 0 cexC2root =
      some ([{ txHash := 77, blockNumber := 9, blockHash := 8, txIndex := 0,
               callIndex := 0, fromAddr := 1, toAddr := 2, value := hexStringOfNat 5 },
             { txHash := 77, blockNumber := 9, blockHash := 8, txIndex := 0,
               callIndex := 1, fromAddr := 5, toAddr := 6, value := hexStringOfNat 8 }],
        2) ∧
    specQualifies cexC2leaf1 = true ∧
    frameAt cexC2root [0, 0] = some cexC2leaf1 ∧
    cexC2leaf1.fromAddr = 3 := by
  refine ⟨?_, ?_, ?_, ?_, ?_⟩
  · simp [allFrames, allFramesList, cexC2root, cexC2mid, cexC2leaf1, cexC2leaf2,
      specQualifies, CallFrame0.typeString, CallFrame0.fromAddr,
      CallFrame0.toAddr, CallFrame0.value, CallFrame0.calls]
  · simp [navigateCallFrame, navigateCalls, cexC2root, cexC2mid, cexC2leaf1,
      cexC2leaf2]
  · simp [specQualifies, cexC2leaf1, CallFrame0.typeString, CallFrame0.fromAddr,
      CallFrame0.toAddr, CallFrame0.value]
  · simp [frameAt, cexC2root, cexC2mid, cexC2leaf1, CallFrame0.calls]
  · rfl

/-- C2, amended: the extractor traverses each tree in depth-first pre-order
but prunes the entire subtree of every frame that fails the code's guard;
over the frames it does emit (`qualFrames f`, pruned pre-order), the
`call_index` values of one tree's records are exactly `0..k-1`, dense and
monotonically increasing in visitation order, where `k` is the number of
*emitted* records. -/
theorem c2_amended (blockNumber : Int) (bh h : Nat) (ths : List Nat) (ti : Nat)
    (hh : ths[ti]? = some h) (f : CallFrame0) (hwf : wfFrame f = true) :
    navigateCallFrame blockNumber bh ths ti 0 f =
      some (rowsFor blockNumber bh h ti 0 (qualFrames f), (qualFrames f).length) ∧
    (rowsFor blockNumber bh h ti 0 (qualFrames f)).map (fun r => r.callIndex) =
      List.range (qualFrames f).length := by
  refine ⟨?_, ?_⟩
  · have hmain := navigateCallFrame_eq_rowsFor blockNumber bh h ths ti hh f hwf 0
    rw [hmain]
    simp
  · rw [rowsFor_map_callIndex, List.range_eq_range']

/-- Witness for `c2_amended` at a concrete tree and hash table. -/
theorem c2_amended_witness :
    (([77] : List Nat)[0]? = some 77 ∧ wfFrame cexC2root = true) ∧
    (navigateCallFrame 9 8 [77] 0 0 cexC2root =
      some (rowsFor 9 8 77 0 0 (qualFrames cexC2root), (qualFrames cexC2root).length) ∧
    (rowsFor 9 8 77 0 0 (qualFrames cexC2root)).map (fun r => r.callIndex) =
      List.range (qualFrames cexC2root).length) :=
  ⟨⟨by simp, by simp [cexC2root, cexC2mid, cexC2leaf1, cexC2leaf2, wfFrame, wfFrames]⟩,
    c2_amended 9 8 77 [77] 0 (by simp) cexC2root
      (by simp [cexC2root, cexC2mid, cexC2leaf1, cexC2leaf2, wfFrame, wfFrames])⟩

/-! ## C6 -/

/-- C6, counterexample.  The claim "the persisted record's `value` field is
the decimal string form of the frame's value" fails at value ten: the code
stores `frame.Value.String()`, which is `hexutil`'s `0x`-prefixed
hexadecimal rendering, so the record reads `"0xa"` while the decimal form is
`"10"`. -/
theorem c6_counterexample :
    navigateCallFrame 0 0 [77] 0 0 cexValueTen =
      some ([{ txHash := 77, blockNumber := 0, blockHash := 0, txIndex := 0,
               callIndex := 0, fromAddr := 1, toAddr := 2, value := "0xa" }], 1) ∧
    decimalStringOfNat 10 = "10" ∧ ("0xa" : String) ≠ "10" := by
  refine ⟨?_, by rfl, by decide⟩
  have hx : hexStringOfNat 10 = "0xa" := by
    rw [hexStringOfNat, hexDigits]
    norm_num
    rw [hexDigitChar]
    norm_num
    rfl
  simp [navigateCallFrame, navigateCalls, cexValueTen, hx]

/-- C6, amended: every persisted internal-transaction record's `value` field
is the `0x`-prefixed lowercase hexadecimal string form of the frame's big
integer value (`hexutil.EncodeBig`), not its decimal form. -/
theorem c6_amended (blockNumber : Int) (bh h : Nat) (ths : List Nat) (ti ci : Nat)
    (hh : ths[ti]? = some h) (f : CallFrame0) (hwf : wfFrame f = true) :
    ∀ rows ciEnd, navigateCallFrame blockNumber bh ths ti ci f = some (rows, ciEnd) →
      ∀ r ∈ rows, ∃ g ∈ qualFrames f, r.value = hexStringOfNat (g.value.getD 0) := by
  intro rows ciEnd hrun r hr
  have hmain := navigateCallFrame_eq_rowsFor blockNumber bh h ths ti hh f hwf ci
  rw [hrun] at hmain
  have hrows : rows = rowsFor blockNumber bh h ti ci (qualFrames f) := by
    have := Option.some.injEq .. ▸ hmain
    exact congrArg Prod.fst (Option.some.inj hmain)
  obtain ⟨g, hg, k, rfl⟩ := mem_rowsFor blockNumber bh h ti (qualFrames f) ci r
    (hrows ▸ hr)
  exact ⟨g, hg, rfl⟩

/-- Witness for `c6_amended` at a concrete frame. -/
theorem c6_amended_witness :
    (([77] : List Nat)[0]? = some 77 ∧ wfFrame cexValueTen = true) ∧
    (∀ rows ciEnd, navigateCallFrame 0 0 [77] 0 0 cexValueTen = some (rows, ciEnd) →
      ∀ r ∈ rows, ∃ g ∈ qualFrames cexValueTen,
        r.value = hexStringOfNat (g.value.getD 0)) :=
  ⟨⟨by simp, by simp [cexValueTen, wfFrame, wfFrames]⟩,
    c6_amended 0 0 77 [77] 0 0 (by simp) cexValueTen
      (by simp [cexValueTen, wfFrame, wfFrames])⟩

/-! ## Hex parsing (go-ethereum `common/hexutil` decode side)

`json.Unmarshal` into `callFrame0` (db_export.go line 77) decodes `from`/`to`
through `common.Address.UnmarshalJSON` (`0x` + exactly 40 hex digits) and
`value` through `hexutil.Big.UnmarshalJSON` (`0x` prefix, at least one digit,
no leading zero digits, at most 64 digits = 256 bits). -/

def parseHexDigit (c : Char) : Option Nat :=
  if '0' ≤ c ∧ c ≤ '9' then some (c.toNat - 48)
  else if 'a' ≤ c ∧ c ≤ 'f' then some (c.toNat - 87)
  else if 'A' ≤ c ∧ c ≤ 'F' then some (c.toNat - 55)
  else none

def hexValAux : List Char → Nat → Option Nat
  | [], acc => some acc
  | c :: cs, acc =>
    match parseHexDigit c with
    | none => none
    | some d => hexValAux cs (acc * 16 + d)

/-- `hexutil.Big.UnmarshalJSON` on a JSON string payload. -/
def parseHexNum (s : String) : Option Nat :=
  match s.data with
  | '0' :: 'x' :: rest =>
    if rest.length = 0 then none
    else if 64 < rest.length then none
    else if rest.head? = some '0' ∧ 1 < rest.length then none
    else hexValAux rest 0
  | _ => none

/-- `common.Address.UnmarshalJSON` on a JSON string payload. -/
def parseAddr (s : String) : Option Nat :=
  match s.data with
  | '0' :: 'x' :: rest => if rest.length = 40 then hexValAux rest 0 else none
  | _ => none

/-- Zero-padded hex digits of fixed width (bytes-derived renderings such as
`common.Address`'s 40-digit and `common.Hash`'s 64-digit forms). -/
def padHexDigits (width n : Nat) : List Char :=
  List.replicate (width - (hexDigits n).length) '0' ++ hexDigits n

/-- `common.Address` JSON rendering: `0x` + exactly 40 hex digits. -/
def addressHex (a : Nat) : String :=
  "0x" ++ String.mk (padHexDigits 40 a)

/-- `common.Hash` JSON rendering: `0x` + exactly 64 hex digits. -/
def hashHex (h : Nat) : String :=
  "0x" ++ String.mk (padHexDigits 64 h)

/-- One byte as two hex digits. -/
def byteHexPair (b : Nat) : List Char :=
  [hexDigitChar (b / 16), hexDigitChar (b % 16)]

/-- `hexutil.Bytes` JSON rendering: `0x` + two digits per byte. -/
def bytesHex (bs : List Nat) : String :=
  "0x" ++ String.mk ((bs.map byteHexPair).flatten)

/-! ### Round-trip lemmas for the hex forms -/

theorem parseHexDigit_hexDigitChar (d : Nat) (hd : d < 16) :
    parseHexDigit (hexDigitChar d) = some d := by
  interval_cases d <;> decide

theorem hexDigits_ne_nil (n : Nat) : hexDigits n ≠ [] := by
  rw [hexDigits]
  split
  · simp
  · simp

theorem hexValAux_append (l1 l2 : List Char) :
    ∀ acc, hexValAux (l1 ++ l2) acc =
      match hexValAux l1 acc with
      | none => none
      | some a => hexValAux l2 a := by
  induction l1 with
  | nil => intro acc; simp [hexValAux]
  | cons c cs ih =>
    intro acc
    simp only [List.cons_append, hexValAux]
    cases parseHexDigit c with
    | none => simp
    | some d => simp [ih]

theorem hexValAux_hexDigits (n : Nat) :
    ∀ acc, hexValAux (hexDigits n) acc = some (acc * 16 ^ (hexDigits n).length + n) := by
  induction n using Nat.strong_induction_on with
  | _ n ih =>
    intro acc
    rw [hexDigits]
    split
    · next h16 =>
      simp [hexValAux, parseHexDigit_hexDigitChar n h16, pow_succ]
    · next h16 =>
      push_neg at h16
      have hdiv : n / 16 < n := Nat.div_lt_self (by omega) (by omega)
      rw [hexValAux_append, ih (n / 16) hdiv acc]
      have hmod : n % 16 < 16 := Nat.mod_lt _ (by omega)
      simp only [hexValAux, parseHexDigit_hexDigitChar _ hmod, List.length_append,
        List.length_singleton]
      congr 1
      have h1 : 16 ^ ((hexDigits (n / 16)).length + 1) =
          16 ^ (hexDigits (n / 16)).length * 16 := by ring
      have h2 : n = n / 16 * 16 + n % 16 := by omega
      rw [h1]
      nlinarith [Nat.div_add_mod n 16]

theorem hexDigits_head_ne_zero (n : Nat) (hn : 1 ≤ n) :
    (hexDigits n).head? ≠ some '0' := by
  induction n using Nat.strong_induction_on with
  | _ n ih =>
    rw [hexDigits]
    split
    · next h16 =>
      have hne : hexDigitChar n ≠ '0' := by
        interval_cases n <;> decide
      simpa using hne
    · next h16 =>
      push_neg at h16
      rw [List.head?_append_of_ne_nil _ (hexDigits_ne_nil (n / 16))]
      exact ih (n / 16) (Nat.div_lt_self (by omega) (by omega))
        (Nat.one_le_div_iff (by omega) |>.mpr h16 |>.trans_eq rfl |> fun h => h)

theorem hexDigits_length_le (k : Nat) : ∀ n, n < 16 ^ k → (hexDigits n).length ≤ max k 1 := by
  induction k with
  | zero =>
    intro n hn
    interval_cases n
    simp [hexDigits]
  | succ k ih =>
    intro n hn
    rw [hexDigits]
    split
    · simp
    · next h16 =>
      push_neg at h16
      have hk : n / 16 < 16 ^ k := by
        rw [Nat.div_lt_iff_lt_mul (by omega)]
        calc n < 16 ^ (k + 1) := hn
        _ = 16 ^ k * 16 := by ring
      have := ih (n / 16) hk
      simp only [List.length_append, List.length_singleton]
      have hk1 : 1 ≤ k := by
        by_contra hk0
        push_neg at hk0
        interval_cases k
        simp at hk
        omega
      omega

theorem parseHexNum_hexStringOfNat (n : Nat) (hn : n < 16 ^ 64) :
    parseHexNum (hexStringOfNat n) = some n := by
  have hdata : (hexStringOfNat n).data = '0' :: 'x' :: hexDigits n := by
    rw [hexStringOfNat]
    rw [String.data_append]
    rfl
  rw [parseHexNum, hdata]
  simp only
  rw [if_neg (by simpa using hexDigits_ne_nil n)]
  have hlen : (hexDigits n).length ≤ 64 := by
    have := hexDigits_length_le 64 n hn
    omega
  rw [if_neg (by omega)]
  have hval := hexValAux_hexDigits n 0
  by_cases h1 : (hexDigits n).length = 1
  · rw [if_neg (by omega)]
    simpa using hval
  · have hlen1 : 1 < (hexDigits n).length := by
      have hpos : 0 < (hexDigits n).length :=
        List.length_pos.mpr (hexDigits_ne_nil n)
      omega
    have hn1 : 1 ≤ n := by
      by_contra h0
      push_neg at h0
      interval_cases n
      rw [show hexDigits 0 = ['0'] by rw [hexDigits]; simp [hexDigitChar]] at hlen1
      simp at hlen1
    rw [if_neg (by
      rintro ⟨hh, -⟩
      exact hexDigits_head_ne_zero n hn1 hh)]
    simpa using hval

theorem hexValAux_replicate_zero (k : Nat) :
    hexValAux (List.replicate k '0') 0 = some 0 := by
  induction k with
  | zero => rfl
  | succ k ih =>
    simp only [List.replicate_succ, hexValAux]
    rw [show parseHexDigit '0' = some 0 from rfl]
    simpa using ih

theorem parseAddr_addressHex (a : Nat) (ha : a < 16 ^ 40) :
    parseAddr (addressHex a) = some a := by
  have hdata : (addressHex a).data = '0' :: 'x' :: padHexDigits 40 a := by
    rw [addressHex, String.data_append]
    rfl
  have hlen : (hexDigits a).length ≤ 40 := by
    have := hexDigits_length_le 40 a ha
    omega
  rw [parseAddr, hdata]
  simp only [padHexDigits]
  rw [if_pos (by simp [List.length_replicate]; omega)]
  rw [hexValAux_append]
  rw [hexValAux_replicate_zero]
  simpa using hexValAux_hexDigits a 0

/-! ## JSON values

The trace bytes are JSON text; we model the parsed structure.  `json.Marshal`
renders a `Json` tree to text injectively and `json.Unmarshal` parses text
back, so the byte layer adds nothing to the properties below and the tree is
the boundary format.  The tracer's encoder only produces strings, arrays and
objects, which is why no number/bool/null leaf is needed on the encode side;
a decode of any other shape is a decode error in the model exactly as a
non-string `value` is for `hexutil.Big`. -/

inductive Json : Type where
  | str (s : String)
  | arr (elems : List Json)
  | obj (fields : List (String × Json))

/-! ## The full call-frame model (eth/tracers/native/call.go)

The tracer's node type.  The struct itself lives in
`eth/tracers/native/call.go` of this repository (not under `src/`); its field
list and JSON tags are quoted verbatim in the comments of
`db_export.go` lines 29–43 and described in the spec's data model. -/

structure CallLog : Type where
  address : Nat
  topics : List Nat
  data : List Nat
  position : Nat
deriving DecidableEq, Repr

inductive CallFrame : Type where
  | mk (typ : Nat) (fromAddr : Nat) (gas gasUsed : Nat) (toAddr : Option Nat)
      (input output : List Nat) (error revertReason : Option String)
      (calls : List CallFrame) (logs : List CallLog) (value : Option Nat)

def CallFrame.typ : CallFrame → Nat
  | .mk t _ _ _ _ _ _ _ _ _ _ _ => t

def CallFrame.fromAddr : CallFrame → Nat
  | .mk _ a _ _ _ _ _ _ _ _ _ _ => a

def CallFrame.gas : CallFrame → Nat
  | .mk _ _ g _ _ _ _ _ _ _ _ _ => g

def CallFrame.gasUsed : CallFrame → Nat
  | .mk _ _ _ g _ _ _ _ _ _ _ _ => g

def CallFrame.toAddr : CallFrame → Option Nat
  | .mk _ _ _ _ t _ _ _ _ _ _ _ => t

def CallFrame.input : CallFrame → List Nat
  | .mk _ _ _ _ _ i _ _ _ _ _ _ => i

def CallFrame.output : CallFrame → List Nat
  | .mk _ _ _ _ _ _ o _ _ _ _ _ => o

def CallFrame.error : CallFrame → Option String
  | .mk _ _ _ _ _ _ _ e _ _ _ _ => e

def CallFrame.revertReason : CallFrame → Option String
  | .mk _ _ _ _ _ _ _ _ r _ _ _ => r

def CallFrame.calls : CallFrame → List CallFrame
  | .mk _ _ _ _ _ _ _ _ _ c _ _ => c

def CallFrame.logs : CallFrame → List CallLog
  | .mk _ _ _ _ _ _ _ _ _ _ l _ => l

def CallFrame.value : CallFrame → Option Nat
  | .mk _ _ _ _ _ _ _ _ _ _ _ v => v

/-- Modelled from the spec: the rendering of the frame type enum
{Call, StaticCall, DelegateCall, CallCode, Create, Create2, SelfDestruct}
(data model §3).  The conversion function (`callFrame.TypeString`, i.e.
`vm.OpCode.String`) is code of this repository that is not under `src/`;
the extractor in `db_export.go` compares the decoded string against
`"Call"`, so the producer-side enum is rendered with the spec's names. -/
def opCodeString (typ : Nat) : String :=
  if typ = 0xF1 then "Call"
  else if typ = 0xFA then "StaticCall"
  else if typ = 0xF4 then "DelegateCall"
  else if typ = 0xF2 then "CallCode"
  else if typ = 0xF0 then "Create"
  else if typ = 0xF5 then "Create2"
  else if typ = 0xFF then "SelfDestruct"
  else "Unknown"

/-! ## Trace encoding (`GetResult` → `json.Marshal(t.callstacks)`)

The gencodec marshaling of `callFrame` (field order and `omitempty` tags as
quoted in db_export.go lines 29–43): `from` and `gas`/`gasUsed`/`input` and
`type` always present; `to`, `output`, `error`, `revertReason`, `calls`,
`logs`, `value` omitted when nil/empty. -/

def encodeLog (l : CallLog) : Json :=
  .obj [("address", .str (addressHex l.address)),
        ("topics", .arr (l.topics.map fun t => .str (hashHex t))),
        ("data", .str (bytesHex l.data)),
        ("position", .str (hexStringOfNat l.position))]

def toSeg : Option Nat → List (String × Json)
  | none => []
  | some a => [("to", .str (addressHex a))]

def outputSeg (out : List Nat) : List (String × Json) :=
  if out = [] then [] else [("output", .str (bytesHex out))]

def errorSeg : Option String → List (String × Json)
  | none => []
  | some e => [("error", .str e)]

def rrSeg : Option String → List (String × Json)
  | none => []
  | some r => [("revertReason", .str r)]

def callsSeg : List Json → List (String × Json)
  | [] => []
  | cjs => [("calls", .arr cjs)]

def logsSeg (ls : List CallLog) : List (String × Json) :=
  if ls = [] then [] else [("logs", .arr (ls.map encodeLog))]

def valueSeg : Option Nat → List (String × Json)
  | none => []
  | some w => [("value", .str (hexStringOfNat w))]

/-- The field list of one marshaled frame (`cjs` is the already-encoded
`calls` array). -/
def encodeFields (typ fa g gu : Nat) (ta : Option Nat) (inp out : List Nat)
    (err rr : Option String) (cjs : List Json) (ls : List CallLog)
    (v : Option Nat) : List (String × Json) :=
  [("from", .str (addressHex fa)),
   ("gas", .str (hexStringOfNat g)),
   ("gasUsed", .str (hexStringOfNat gu))] ++
  toSeg ta ++
  [("input", .str (bytesHex inp))] ++
  outputSeg out ++ errorSeg err ++ rrSeg rr ++
  callsSeg cjs ++ logsSeg ls ++ valueSeg v ++
  [("type", .str (opCodeString typ))]

mutual

def encodeFrame : CallFrame → Json
  | .mk typ fa g gu ta inp out err rr cs ls v =>
    .obj (encodeFields typ fa g gu ta inp out err rr (encodeFrames cs) ls v)

def encodeFrames : List CallFrame → List Json
  | [] => []
  | c :: cs => encodeFrame c :: encodeFrames cs

end

/-- `json.Marshal(t.callstacks)`: an array of per-transaction arrays of
frames. -/
def encodeTrace (callstacks : List (List CallFrame)) : Json :=
  .arr (callstacks.map fun s => .arr (encodeFrames s))

/-! ## Trace decoding (`json.Unmarshal(traceData, &callstacks)` with
`callstacks [][]callFrame0`, db_export.go lines 76–77)

Go's `encoding/json` semantics for the `callFrame0` struct: unknown keys are
ignored; a missing key leaves the field at its zero value (`from` → zero
address, pointers → nil, slice → nil, string → empty); for duplicate keys the
last occurrence wins; a present key must decode to the field's type or the
whole unmarshal fails. -/

def jsonField (fields : List (String × Json)) (key : String) : Option Json :=
  (fields.reverse.find? (fun p => p.1 == key)).map (fun p => p.2)

theorem jsonField_sizeOf {fields : List (String × Json)} {key : String} {j : Json}
    (h : jsonField fields key = some j) : sizeOf j < sizeOf fields := by
  rw [jsonField] at h
  cases hf : (fields.reverse.find? (fun p => p.1 == key)) with
  | none => rw [hf] at h; cases h
  | some p =>
    rw [hf] at h
    simp at h
    have hmem : p ∈ fields.reverse := List.mem_of_find?_eq_some hf
    rw [List.mem_reverse] at hmem
    have hsz : sizeOf p < sizeOf fields := List.sizeOf_lt_of_mem hmem
    cases p with
    | mk k v =>
      subst h
      simp only [Prod.mk.sizeOf_spec] at hsz
      show sizeOf v < sizeOf fields
      omega

mutual

def decodeFrame0 : Json → Option (CallFrame0)
  | .obj fields =>
    (match jsonField fields "from" with
     | none => some 0
     | some (.str s) => parseAddr s
     | some _ => none).bind fun fa =>
    (match jsonField fields "to" with
     | none => some none
     | some (.str s) => (parseAddr s).map some
     | some _ => none).bind fun ta =>
    (match hc : jsonField fields "calls" with
     | none => some []
     | some (.arr js) => decodeFrames0 js
     | some _ => none).bind fun cs =>
    (match jsonField fields "value" with
     | none => some none
     | some (.str s) => (parseHexNum s).map some
     | some _ => none).bind fun v =>
    (match jsonField fields "type" with
     | none => some ""
     | some (.str s) => some s
     | some _ => none).bind fun ts =>
    some (.mk fa ta cs v ts)
  | _ => none
termination_by j => sizeOf j
decreasing_by
  have := jsonField_sizeOf hc
  simp only [Json.obj.sizeOf_spec, Json.arr.sizeOf_spec] at *
  omega

def decodeFrames0 : List Json → Option (List CallFrame0)
  | [] => some []
  | j :: js =>
    (decodeFrame0 j).bind fun f => (decodeFrames0 js).map fun fs => f :: fs
termination_by js => sizeOf js
decreasing_by
  all_goals (simp; try omega)

end

/-- One decoded per-transaction entry (a JSON array of frames). -/
def decodeStack : Json → Option (List CallFrame0)
  | .arr js => decodeFrames0 js
  | _ => none

def decodeStacks : List Json → Option (List (List CallFrame0))
  | [] => some []
  | j :: js =>
    (decodeStack j).bind fun s => (decodeStacks js).map fun ss => s :: ss

/-- `json.Unmarshal(traceData, &callstacks)`: the top level must be an array
of arrays of frame objects. -/
def decodeTrace : Json → Option (List (List CallFrame0))
  | .arr js => decodeStacks js
  | _ => none

/-! ## Projection: what decoding retains of a full frame -/

mutual

def projFrame : CallFrame → CallFrame0
  | .mk typ fa _ _ ta _ _ _ _ cs _ v => .mk fa ta (projFrames cs) v (opCodeString typ)

def projFrames : List CallFrame → List CallFrame0
  | [] => []
  | c :: cs => projFrame c :: projFrames cs

end

def projTrace (callstacks : List (List CallFrame)) : List (List CallFrame0) :=
  callstacks.map projFrames

mutual

/-- Numeric bounds under which the hex renderings are within the decoder's
accepted widths: addresses are 160-bit (40 hex digits), values 256-bit
(64 hex digits).  Every frame the tracer captures from the engine satisfies
these. -/
def wfBounds : CallFrame → Bool
  | .mk _ fa _ _ ta _ _ _ _ cs _ v =>
    decide (fa < 16 ^ 40) &&
    (match ta with | none => true | some a => decide (a < 16 ^ 40)) &&
    (match v with | none => true | some w => decide (w < 16 ^ 64)) &&
    wfBoundsList cs

def wfBoundsList : List CallFrame → Bool
  | [] => true
  | c :: cs => wfBounds c && wfBoundsList cs

end

/-! ## Joint induction over the full-frame nested inductive -/

theorem frameListInductionFull (P : CallFrame → Prop) (Q : List CallFrame → Prop)
    (hmk : ∀ typ fa g gu ta inp out err rr cs ls v, Q cs →
      P (.mk typ fa g gu ta inp out err rr cs ls v))
    (hnil : Q [])
    (hcons : ∀ f l, P f → Q l → Q (f :: l)) :
    (∀ f, P f) ∧ (∀ l, Q l) := by
  have key : ∀ n, (∀ f : CallFrame, sizeOf f ≤ n → P f) ∧
      (∀ l : List CallFrame, sizeOf l ≤ n → Q l) := by
    intro n
    induction n with
    | zero =>
      constructor
      · intro f hf; cases f with
        | mk a b c d e i o er r cs ls v => simp at hf
      · intro l hl
        cases l with
        | nil => exact hnil
        | cons x xs => simp at hl
    | succ n ih =>
      constructor
      · intro f hf
        cases f with
        | mk a b c d e i o er r cs ls v =>
          apply hmk
          apply ih.2
          simp at hf
          omega
      · intro l hl
        cases l with
        | nil => exact hnil
        | cons x xs =>
          simp at hl
          exact hcons _ _ (ih.1 x (by omega)) (ih.2 xs (by omega))
  constructor
  · intro f; exact (key (sizeOf f)).1 f le_rfl
  · intro l; exact (key (sizeOf l)).2 l le_rfl

/-! ## Field-lookup lemmas -/

theorem jsonField_nil (k : String) : jsonField [] k = none := rfl

theorem jsonField_append_of_some {l2 : List (String × Json)} {k : String} {j : Json}
    (l1 : List (String × Json)) (h : jsonField l2 k = some j) :
    jsonField (l1 ++ l2) k = some j := by
  rw [jsonField] at h ⊢
  rw [List.reverse_append, List.find?_append]
  cases hf : l2.reverse.find? (fun p => p.1 == k) with
  | none => rw [hf] at h; cases h
  | some p => rw [hf] at h; simpa using h

theorem jsonField_append_of_none {l2 : List (String × Json)} {k : String}
    (l1 : List (String × Json)) (h : jsonField l2 k = none) :
    jsonField (l1 ++ l2) k = jsonField l1 k := by
  rw [jsonField] at h ⊢
  rw [List.reverse_append, List.find?_append]
  cases hf : l2.reverse.find? (fun p => p.1 == k) with
  | none => simp [jsonField]
  | some p => rw [hf] at h; simp at h

theorem jsonField_single_self (k : String) (j : Json) :
    jsonField [(k, j)] k = some j := by
  simp [jsonField]

theorem jsonField_single_ne (k k' : String) (j : Json) (h : (k' == k) = false) :
    jsonField [(k', j)] k = none := by
  simp [jsonField, List.find?, h]

theorem jsonField_toSeg_ne (ta : Option Nat) (k : String) (h : ("to" == k) = false) :
    jsonField (toSeg ta) k = none := by
  cases ta with
  | none => rfl
  | some a => exact jsonField_single_ne k "to" _ h

theorem jsonField_outputSeg_ne (out : List Nat) (k : String)
    (h : ("output" == k) = false) : jsonField (outputSeg out) k = none := by
  rw [outputSeg]
  split
  · rfl
  · exact jsonField_single_ne k "output" _ h

theorem jsonField_errorSeg_ne (err : Option String) (k : String)
    (h : ("error" == k) = false) : jsonField (errorSeg err) k = none := by
  cases err with
  | none => rfl
  | some e => exact jsonField_single_ne k "error" _ h

theorem jsonField_rrSeg_ne (rr : Option String) (k : String)
    (h : ("revertReason" == k) = false) : jsonField (rrSeg rr) k = none := by
  cases rr with
  | none => rfl
  | some r => exact jsonField_single_ne k "revertReason" _ h

theorem jsonField_callsSeg_ne (cjs : List Json) (k : String)
    (h : ("calls" == k) = false) : jsonField (callsSeg cjs) k = none := by
  cases cjs with
  | nil => rfl
  | cons c cs => exact jsonField_single_ne k "calls" _ h

theorem jsonField_logsSeg_ne (ls : List CallLog) (k : String)
    (h : ("logs" == k) = false) : jsonField (logsSeg ls) k = none := by
  rw [logsSeg]
  split
  · rfl
  · exact jsonField_single_ne k "logs" _ h

theorem jsonField_valueSeg_ne (v : Option Nat) (k : String)
    (h : ("value" == k) = false) : jsonField (valueSeg v) k = none := by
  cases v with
  | none => rfl
  | some w => exact jsonField_single_ne k "value" _ h

theorem jsonField_append_none {l1 l2 : List (String × Json)} {k : String}
    (h1 : jsonField l1 k = none) (h2 : jsonField l2 k = none) :
    jsonField (l1 ++ l2) k = none := by
  rw [jsonField_append_of_none l1 h2, h1]

theorem jsonField_encodeFields_from (typ fa g gu : Nat) (ta : Option Nat)
    (inp out : List Nat) (err rr : Option String) (cjs : List Json)
    (ls : List CallLog) (v : Option Nat) :
    jsonField (encodeFields typ fa g gu ta inp out err rr cjs ls v) "from" =
      some (.str (addressHex fa)) := by
  rw [encodeFields]
  rw [jsonField_append_of_none _ (jsonField_single_ne "from" "type" _ (by decide))]
  rw [jsonField_append_of_none _ (jsonField_valueSeg_ne v "from" (by decide))]
  rw [jsonField_append_of_none _ (jsonField_logsSeg_ne ls "from" (by decide))]
  rw [jsonField_append_of_none _ (jsonField_callsSeg_ne cjs "from" (by decide))]
  rw [jsonField_append_of_none _ (jsonField_rrSeg_ne rr "from" (by decide))]
  rw [jsonField_append_of_none _ (jsonField_errorSeg_ne err "from" (by decide))]
  rw [jsonField_append_of_none _ (jsonField_outputSeg_ne out "from" (by decide))]
  rw [jsonField_append_of_none _ (jsonField_single_ne "from" "input" _ (by decide))]
  rw [jsonField_append_of_none _ (jsonField_toSeg_ne ta "from" (by decide))]
  simp [jsonField]

theorem jsonField_encodeFields_to (typ fa g gu : Nat) (ta : Option Nat)
    (inp out : List Nat) (err rr : Option String) (cjs : List Json)
    (ls : List CallLog) (v : Option Nat) :
    jsonField (encodeFields typ fa g gu ta inp out err rr cjs ls v) "to" =
      (ta.map fun a => .str (addressHex a)) := by
  rw [encodeFields]
  rw [jsonField_append_of_none _ (jsonField_single_ne "to" "type" _ (by decide))]
  rw [jsonField_append_of_none _ (jsonField_valueSeg_ne v "to" (by decide))]
  rw [jsonField_append_of_none _ (jsonField_logsSeg_ne ls "to" (by decide))]
  rw [jsonField_append_of_none _ (jsonField_callsSeg_ne cjs "to" (by decide))]
  rw [jsonField_append_of_none _ (jsonField_rrSeg_ne rr "to" (by decide))]
  rw [jsonField_append_of_none _ (jsonField_errorSeg_ne err "to" (by decide))]
  rw [jsonField_append_of_none _ (jsonField_outputSeg_ne out "to" (by decide))]
  rw [jsonField_append_of_none _ (jsonField_single_ne "to" "input" _ (by decide))]
  cases ta with
  | none =>
    rw [show toSeg none = [] from rfl, List.append_nil]
    simp [jsonField]
  | some a =>
    rw [jsonField_append_of_some _
      (show jsonField (toSeg (some a)) "to" = some (.str (addressHex a)) from
        jsonField_single_self "to" _)]
    rfl

theorem jsonField_encodeFields_calls (typ fa g gu : Nat) (ta : Option Nat)
    (inp out : List Nat) (err rr : Option String) (cjs : List Json)
    (ls : List CallLog) (v : Option Nat) :
    jsonField (encodeFields typ fa g gu ta inp out err rr cjs ls v) "calls" =
      (match cjs with | [] => none | _ => some (.arr cjs)) := by
  rw [encodeFields]
  rw [jsonField_append_of_none _ (jsonField_single_ne "calls" "type" _ (by decide))]
  rw [jsonField_append_of_none _ (jsonField_valueSeg_ne v "calls" (by decide))]
  rw [jsonField_append_of_none _ (jsonField_logsSeg_ne ls "calls" (by decide))]
  cases cjs with
  | nil =>
    rw [show callsSeg [] = [] from rfl, List.append_nil]
    rw [jsonField_append_of_none _ (jsonField_rrSeg_ne rr "calls" (by decide))]
    rw [jsonField_append_of_none _ (jsonField_errorSeg_ne err "calls" (by decide))]
    rw [jsonField_append_of_none _ (jsonField_outputSeg_ne out "calls" (by decide))]
    rw [jsonField_append_of_none _ (jsonField_single_ne "calls" "input" _ (by decide))]
    rw [jsonField_append_of_none _ (jsonField_toSeg_ne ta "calls" (by decide))]
    simp [jsonField]
  | cons c cs =>
    rw [jsonField_append_of_some _
      (show jsonField (callsSeg (c :: cs)) "calls" = some (.arr (c :: cs)) from
        jsonField_single_self "calls" _)]

theorem jsonField_encodeFields_value (typ fa g gu : Nat) (ta : Option Nat)
    (inp out : List Nat) (err rr : Option String) (cjs : List Json)
    (ls : List CallLog) (v : Option Nat) :
    jsonField (encodeFields typ fa g gu ta inp out err rr cjs ls v) "value" =
      (v.map fun w => .str (hexStringOfNat w)) := by
  rw [encodeFields]
  rw [jsonField_append_of_none _ (jsonField_single_ne "value" "type" _ (by decide))]
  cases v with
  | none =>
    rw [show valueSeg none = [] from rfl, List.append_nil]
    rw [jsonField_append_of_none _ (jsonField_logsSeg_ne ls "value" (by decide))]
    rw [jsonField_append_of_none _ (jsonField_callsSeg_ne cjs "value" (by decide))]
    rw [jsonField_append_of_none _ (jsonField_rrSeg_ne rr "value" (by decide))]
    rw [jsonField_append_of_none _ (jsonField_errorSeg_ne err "value" (by decide))]
    rw [jsonField_append_of_none _ (jsonField_outputSeg_ne out "value" (by decide))]
    rw [jsonField_append_of_none _ (jsonField_single_ne "value" "input" _ (by decide))]
    rw [jsonField_append_of_none _ (jsonField_toSeg_ne ta "value" (by decide))]
    simp [jsonField]
  | some w =>
    rw [jsonField_append_of_some _
      (show jsonField (valueSeg (some w)) "value" = some (.str (hexStringOfNat w)) from
        jsonField_single_self "value" _)]
    rfl

theorem jsonField_encodeFields_type (typ fa g gu : Nat) (ta : Option Nat)
    (inp out : List Nat) (err rr : Option String) (cjs : List Json)
    (ls : List CallLog) (v : Option Nat) :
    jsonField (encodeFields typ fa g gu ta inp out err rr cjs ls v) "type" =
      some (.str (opCodeString typ)) := by
  rw [encodeFields]
  exact jsonField_append_of_some _ (jsonField_single_self "type" _)

theorem wfBounds_mk_iff (typ fa g gu : Nat) (ta : Option Nat)
    (inp out : List Nat) (err rr : Option String) (cs : List CallFrame)
    (ls : List CallLog) (v : Option Nat) :
    wfBounds (.mk typ fa g gu ta inp out err rr cs ls v) = true ↔
      fa < 16 ^ 40 ∧ (∀ a, ta = some a → a < 16 ^ 40) ∧
        (∀ w, v = some w → w < 16 ^ 64) ∧ wfBoundsList cs = true := by
  cases ta <;> cases v <;> simp [wfBounds] <;> tauto

/-- Master round-trip lemma: decoding a marshaled frame recovers exactly its
projection to the `callFrame0` fields. -/
theorem decodeFrame0_encodeFrame :
    ∀ f, wfBounds f = true → decodeFrame0 (encodeFrame f) = some (projFrame f) := by
  have main := frameListInductionFull
    (fun f => wfBounds f = true → decodeFrame0 (encodeFrame f) = some (projFrame f))
    (fun l => wfBoundsList l = true →
      decodeFrames0 (encodeFrames l) = some (projFrames l))
    ?_ ?_ ?_
  · exact main.1
  · intro typ fa g gu ta inp out err rr cs ls v ihq hw
    rw [wfBounds_mk_iff] at hw
    obtain ⟨hfa, hta, hv, hcs⟩ := hw
    have hq := ihq hcs
    rw [encodeFrame, decodeFrame0]
    rw [jsonField_encodeFields_from, jsonField_encodeFields_to,
      jsonField_encodeFields_calls, jsonField_encodeFields_value,
      jsonField_encodeFields_type]
    cases ta with
    | none =>
      cases v with
      | none =>
        cases cs with
        | nil =>
          simp [parseAddr_addressHex fa hfa, encodeFrames, projFrame, projFrames]
        | cons c cs2 =>
          simp only [encodeFrames] at hq ⊢
          simp [parseAddr_addressHex fa hfa, hq, projFrame, projFrames]
      | some w =>
        cases cs with
        | nil =>
          simp [parseAddr_addressHex fa hfa,
            parseHexNum_hexStringOfNat w (hv w rfl), encodeFrames, projFrame,
            projFrames]
        | cons c cs2 =>
          simp only [encodeFrames] at hq ⊢
          simp [parseAddr_addressHex fa hfa,
            parseHexNum_hexStringOfNat w (hv w rfl), hq, projFrame, projFrames]
    | some a =>
      cases v with
      | none =>
        cases cs with
        | nil =>
          simp [parseAddr_addressHex fa hfa, parseAddr_addressHex a (hta a rfl),
            encodeFrames, projFrame, projFrames]
        | cons c cs2 =>
          simp only [encodeFrames] at hq ⊢
          simp [parseAddr_addressHex fa hfa, parseAddr_addressHex a (hta a rfl),
            hq, projFrame, projFrames]
      | some w =>
        cases cs with
        | nil =>
          simp [parseAddr_addressHex fa hfa, parseAddr_addressHex a (hta a rfl),
            parseHexNum_hexStringOfNat w (hv w rfl), encodeFrames, projFrame,
            projFrames]
        | cons c cs2 =>
          simp only [encodeFrames] at hq ⊢
          simp [parseAddr_addressHex fa hfa, parseAddr_addressHex a (hta a rfl),
            parseHexNum_hexStringOfNat w (hv w rfl), hq, projFrame, projFrames]
  · intro _
    simp [encodeFrames, decodeFrames0, projFrames]
  · intro f l ihf ihl hw
    simp only [wfBoundsList, Bool.and_eq_true] at hw
    simp only [encodeFrames, decodeFrames0, ihf hw.1, ihl hw.2, projFrames]
    rfl

theorem decodeFrames0_encodeFrames (l : List CallFrame)
    (hw : wfBoundsList l = true) :
    decodeFrames0 (encodeFrames l) = some (projFrames l) := by
  induction l with
  | nil => simp [encodeFrames, decodeFrames0, projFrames]
  | cons f l ih =>
    simp only [wfBoundsList, Bool.and_eq_true] at hw
    simp only [encodeFrames, decodeFrames0, decodeFrame0_encodeFrame f hw.1,
      ih hw.2, projFrames]
    rfl

/-- Round trip of a whole trace: decoding the marshaled trace recovers the
projection of every stack. -/
theorem decodeTrace_encodeTrace (callstacks : List (List CallFrame))
    (hw : ∀ s ∈ callstacks, wfBoundsList s = true) :
    decodeTrace (encodeTrace callstacks) = some (projTrace callstacks) := by
  induction callstacks with
  | nil => simp [encodeTrace, decodeTrace, decodeStacks, projTrace]
  | cons s ss ih =>
    have hs := hw s (by simp)
    have hss := ih (fun s2 hs2 => hw s2 (by simp [hs2]))
    simp only [encodeTrace, decodeTrace, List.map_cons, decodeStacks, decodeStack,
      decodeFrames0_encodeFrames s hs] at hss ⊢
    rw [show decodeStacks (List.map (fun s => Json.arr (encodeFrames s)) ss) =
      some (projTrace ss) from by
        simpa [encodeTrace, decodeTrace] using hss]
    simp [projTrace]

/-! ## C4 -/

/-- Two full frames that differ only in `gas`. -/
def cexFrameGas5 : CallFrame := .mk 0xF1 1 5 0 (some 2) [] [] none none [] [] (some 3)
def cexFrameGas7 : CallFrame := .mk 0xF1 1 7 0 (some 2) [] [] none none [] [] (some 3)

/-- C4, counterexample.  The claim `decode(encode(T)) == T` fails: the decode
side of the boundary (`json.Unmarshal` into `[][]callFrame0`) retains only
`from`/`to`/`calls`/`value`/`type`, so two distinct well-formed traces that
differ only in a dropped field (here `gas`) decode to the same result — no
decoder output can equal both inputs.  What decoding returns is the
projection of the trace, not the trace. -/
theorem c4_counterexample :
    decodeTrace (encodeTrace [[cexFrameGas5]]) =
      decodeTrace (encodeTrace [[cexFrameGas7]]) ∧
    cexFrameGas5 ≠ cexFrameGas7 ∧
    cexFrameGas5.gas = 5 ∧ cexFrameGas7.gas = 7 ∧
    decodeTrace (encodeTrace [[cexFrameGas5]]) = some [[projFrame cexFrameGas5]] := by
  have hw5 : wfBoundsList [cexFrameGas5] = true := by
    simp [wfBoundsList, wfBounds, cexFrameGas5]
  have hw7 : wfBoundsList [cexFrameGas7] = true := by
    simp [wfBoundsList, wfBounds, cexFrameGas7]
  have h5 := decodeTrace_encodeTrace [[cexFrameGas5]] (by intro s hs; simp at hs; simp [hs, hw5])
  have h7 := decodeTrace_encodeTrace [[cexFrameGas7]] (by intro s hs; simp at hs; simp [hs, hw7])
  have hproj : projFrame cexFrameGas5 = projFrame cexFrameGas7 := by
    simp [projFrame, projFrames, cexFrameGas5, cexFrameGas7]
  refine ⟨?_, ?_, rfl, rfl, ?_⟩
  · rw [h5, h7]
    simp [projTrace, projFrames, hproj]
  · simp [cexFrameGas5, cexFrameGas7]
  · rw [h5]
    simp [projTrace, projFrames]

/-- C4, amended: for every well-formed list of call trees `T` (addresses
within 160 bits, values within 256 bits — true of engine-produced frames),
`decode(encode(T))` succeeds and equals the projection of `T` onto the
fields the decoder retains (`from`, `to`, `calls`, `value`, `type`); on
those fields the round trip is exact, in particular it preserves "value
absent" vs "value present and zero" and "to absent" vs "to present"
(including a present zero address).  Fields outside the projection (`gas`,
`gasUsed`, `input`, `output`, `error`, `revertReason`, `logs`) are not
recovered. -/
theorem c4_amended (callstacks : List (List CallFrame))
    (hw : ∀ s ∈ callstacks, wfBoundsList s = true) :
    decodeTrace (encodeTrace callstacks) = some (projTrace callstacks) ∧
    (∀ f : CallFrame, (projFrame f).value = f.value ∧
      (projFrame f).toAddr = f.toAddr ∧ (projFrame f).fromAddr = f.fromAddr) := by
  refine ⟨decodeTrace_encodeTrace callstacks hw, ?_⟩
  intro f
  cases f with
  | mk typ fa g gu ta inp out err rr cs ls v =>
    refine ⟨?_, ?_, ?_⟩ <;>
      simp [projFrame, CallFrame0.value, CallFrame0.toAddr, CallFrame0.fromAddr,
        CallFrame.value, CallFrame.toAddr, CallFrame.fromAddr]

/-- Witness for `c4_amended` at a concrete two-frame trace (one frame with a
present zero value and a present zero address, one with both absent),
exercising the presence distinctions. -/
theorem c4_amended_witness :
    (∀ s ∈ [[CallFrame.mk 0xF1 1 5 0 (some 0) [] [] none none [] [] (some 0),
             CallFrame.mk 0xFA 1 5 0 none [] [] none none [] [] none]],
      wfBoundsList s = true) ∧
    (decodeTrace (encodeTrace
        [[CallFrame.mk 0xF1 1 5 0 (some 0) [] [] none none [] [] (some 0),
          CallFrame.mk 0xFA 1 5 0 none [] [] none none [] [] none]]) =
      some (projTrace
        [[CallFrame.mk 0xF1 1 5 0 (some 0) [] [] none none [] [] (some 0),
          CallFrame.mk 0xFA 1 5 0 none [] [] none none [] [] none]]) ∧
    (∀ f : CallFrame, (projFrame f).value = f.value ∧
      (projFrame f).toAddr = f.toAddr ∧ (projFrame f).fromAddr = f.fromAddr)) :=
  ⟨by intro s hs; simp at hs; subst hs; simp [wfBoundsList, wfBounds],
   c4_amended _
     (by intro s hs; simp at hs; subst hs; simp [wfBoundsList, wfBounds])⟩

/-! ## The blockCallsTracer state machine (src/unnamed/part_002)

```
type blockCallsTracer struct {
    callstacks [][]callFrame
    callstack  []callFrame
    config     blockCallsTracerConfig   // OnlyTopCall, WithLog
    gasLimit   uint64
    depth      int
    interrupt  atomic.Bool
    reason     error
}
```

The Go stack is a slice with index 0 first and the top at the end; the Lean
`callstack` keeps the same order (head = Go index 0, `getLast?` = top).
`onLog` and `onTxEnd` can dereference out of range in Go, hence `Option`. -/

def CallFrame.setGasUsed : CallFrame → Nat → CallFrame
  | .mk t fa g _ ta i o e r cs ls v, gu => .mk t fa g gu ta i o e r cs ls v

def CallFrame.setOutput : CallFrame → List Nat → CallFrame
  | .mk t fa g gu ta i _ e r cs ls v, o => .mk t fa g gu ta i o e r cs ls v

def CallFrame.setError : CallFrame → Option String → CallFrame
  | .mk t fa g gu ta i o _ r cs ls v, e => .mk t fa g gu ta i o e r cs ls v

def CallFrame.withCalls : CallFrame → List CallFrame → CallFrame
  | .mk t fa g gu ta i o e r _ ls v, cs => .mk t fa g gu ta i o e r cs ls v

def CallFrame.addCall (f : CallFrame) (c : CallFrame) : CallFrame :=
  f.withCalls (f.calls ++ [c])

def CallFrame.addCalls (f : CallFrame) (new : List CallFrame) : CallFrame :=
  f.withCalls (f.calls ++ new)

def CallFrame.addLog : CallFrame → CallLog → CallFrame
  | .mk t fa g gu ta i o e r cs ls v, l => .mk t fa g gu ta i o e r cs (ls ++ [l]) v

/-- The Go zero value of `callFrame` (the dummy frame `OnTxStart` places at
index 0 via `make([]callFrame, 1)`). -/
def emptyCallFrame : CallFrame := .mk 0 0 0 0 none [] [] none none [] [] none

/-- Modelled from the spec: `callFrame.processOutput`
(eth/tracers/native/call.go, code of this repository not under `src/`).
Per §4.1: on success the scope's output bytes are attached (empty stored as
empty); a failed scope retains its error string instead.  The revert-reason
ABI decoding the spec mentions is not modelled — no claim inspects
`revertReason`, and every verified statement treats the result of
`processOutput` as an opaque frame. -/
def processOutput (f : CallFrame) (output : List Nat) (err : Option String)
    (_reverted : Bool) : CallFrame :=
  match err with
  | none => f.setOutput output
  | some e => f.setError (some e)

mutual

/-- Modelled from the spec: `clearFailedLogs` (eth/tracers/native/call.go,
code of this repository not under `src/`).  Per §4.1: logs of every frame
whose own execution failed, or that sits below a failed scope, are removed
("failed logs" must not appear even if the root succeeded). -/
def clearFailedLogs (parentFailed : Bool) : CallFrame → CallFrame
  | .mk t fa g gu ta i o e r cs ls v =>
    let failed := parentFailed || e.isSome
    .mk t fa g gu ta i o e r (clearFailedLogsList failed cs)
      (if failed then [] else ls) v

def clearFailedLogsList (parentFailed : Bool) : List CallFrame → List CallFrame
  | [] => []
  | c :: cs => clearFailedLogs parentFailed c :: clearFailedLogsList parentFailed cs

end

/-- Replace the last element of a list (identity on `[]`). -/
def modifyLast {α : Type _} (g : α → α) : List α → List α
  | [] => []
  | [a] => [g a]
  | a :: b :: rest => a :: modifyLast g (b :: rest)

structure BlockCallsTracer : Type where
  callstacks : List (List CallFrame)
  callstack : List CallFrame
  onlyTopCall : Bool
  withLog : Bool
  gasLimit : Nat
  depth : Nat
  interrupt : Bool
  reason : Option String

/-- A fresh tracer with the given config (`newBlockCallsTracerObject`; the
export pipeline constructs it with `cfg = nil`, i.e. both flags false). -/
def initTracer (onlyTopCall withLog : Bool) : BlockCallsTracer :=
  { callstacks := [], callstack := [], onlyTopCall := onlyTopCall
    withLog := withLog, gasLimit := 0, depth := 0, interrupt := false
    reason := none }

/-- `OnBlockStart` (part_002 lines 85–89). -/
def onBlockStart (st : BlockCallsTracer) : BlockCallsTracer :=
  { st with callstacks := [], interrupt := false, reason := none }

/-- `OnTxStart` (part_002 lines 153–159): fresh one-element stack holding the
zero dummy frame; records the gas limit; resets depth, interrupt flag and
reason. -/
def onTxStart (st : BlockCallsTracer) (txGas : Nat) : BlockCallsTracer :=
  { st with callstack := [emptyCallFrame], gasLimit := txGas, depth := 0
            interrupt := false, reason := none }

/-- `OnEnter` (part_002 lines 92–116).  Sets `depth` first; drops the frame
under top-call-only below the root or when interrupted; otherwise pushes a
new frame (input copied — value semantics here), overriding `gas` with the
recorded transaction gas limit at depth 0.  `To` is always set (`&toCopy`). -/
def onEnter (st : BlockCallsTracer) (depth typ fromAddr toAddr : Nat)
    (input : List Nat) (gas : Nat) (value : Option Nat) : BlockCallsTracer :=
  let st1 := { st with depth := depth }
  if st1.onlyTopCall ∧ 0 < depth then st1
  else if st1.interrupt then st1
  else
    let call : CallFrame := .mk typ fromAddr
      (if depth = 0 then st1.gasLimit else gas) 0 (some toAddr) input [] none
      none [] [] value
    { st1 with callstack := st1.callstack ++ [call] }

/-- `captureEnd` (part_002 lines 146–151): a no-op unless exactly one frame
is open. -/
def captureEnd (st : BlockCallsTracer) (output : List Nat) (err : Option String)
    (reverted : Bool) : BlockCallsTracer :=
  match st.callstack with
  | [f] => { st with callstack := [processOutput f output err reverted] }
  | _ => st

/-- `OnExit` (part_002 lines 120–144). -/
def onExit (st : BlockCallsTracer) (depth : Nat) (output : List Nat)
    (gasUsed : Nat) (err : Option String) (reverted : Bool) : BlockCallsTracer :=
  if depth = 0 then captureEnd st output err reverted
  else
    let st1 := { st with depth := depth - 1 }
    if st1.onlyTopCall then st1
    else if st1.callstack.length ≤ 1 then st1
    else
      match st1.callstack.getLast? with
      | none => st1
      | some call =>
        let call2 := processOutput (call.setGasUsed gasUsed) output err reverted
        { st1 with callstack :=
            modifyLast (fun parent => parent.addCall call2) st1.callstack.dropLast }

/-- `OnLog` (part_002 lines 175–195).  With logging enabled, not blocked by
top-call-only, and not interrupted, the code indexes
`t.callstack[len(t.callstack)-1]`; on an empty stack that index is `-1` and
the Go program panics (`none`). -/
def onLog (st : BlockCallsTracer) (address : Nat) (topics data : List Nat) :
    Option BlockCallsTracer :=
  if !st.withLog then some st
  else if st.onlyTopCall ∧ 0 < st.depth then some st
  else if st.interrupt then some st
  else
    match st.callstack.getLast? with
    | none => none
    | some _ =>
      let upd := fun top : CallFrame =>
        top.addLog (CallLog.mk address topics data top.calls.length)
      some { st with callstack := modifyLast upd st.callstack }

/-- `OnTxEnd` (part_002 lines 161–173).  On a validation error the state is
left untouched (the open stack is *not* cleared).  Otherwise the code writes
`t.callstack[0].GasUsed = receipt.GasUsed` — dereferencing a nil receipt or
indexing an empty stack panics (`none`) — optionally scrubs failed logs of
the index-0 frame, appends the whole stack to `callstacks` and clears it. -/
def onTxEnd (st : BlockCallsTracer) (receiptGasUsed : Option Nat)
    (err : Option String) : Option BlockCallsTracer :=
  if err.isSome then some st
  else
    match receiptGasUsed with
    | none => none
    | some gu =>
      match st.callstack with
      | [] => none
      | c0 :: rest =>
        let stack :=
          if st.withLog then clearFailedLogs false (c0.setGasUsed gu) :: rest
          else c0.setGasUsed gu :: rest
        some { st with callstacks := st.callstacks ++ [stack], callstack := [] }

/-- `Stop` (part_002 lines 207–211). -/
def stopTracer (st : BlockCallsTracer) (e : Option String) : BlockCallsTracer :=
  { st with reason := e, interrupt := true }

/-- `GetResult` (part_002 lines 199–205): the JSON marshaling of the finished
stacks plus the stored interruption reason.  (`json.Marshal` cannot fail on
this value, so the encode-error branch is vacuous.) -/
def getResult (st : BlockCallsTracer) : Json × Option String :=
  (encodeTrace st.callstacks, st.reason)

/-! ## Driving the tracer with an event stream -/

inductive TraceEvent : Type where
  | blockStart
  | txStart (gasLimit : Nat)
  | enter (depth typ fromAddr toAddr : Nat) (input : List Nat) (gas : Nat)
      (value : Option Nat)
  | exit (depth : Nat) (output : List Nat) (gasUsed : Nat) (err : Option String)
      (reverted : Bool)
  | log (address : Nat) (topics data : List Nat)
  | txEnd (receiptGasUsed : Option Nat) (err : Option String)
  | stop (reason : Option String)

def step (st : BlockCallsTracer) : TraceEvent → Option BlockCallsTracer
  | .blockStart => some (onBlockStart st)
  | .txStart g => some (onTxStart st g)
  | .enter d t fa ta i g v => some (onEnter st d t fa ta i g v)
  | .exit d o gu e r => some (onExit st d o gu e r)
  | .log a t d => onLog st a t d
  | .txEnd rg e => onTxEnd st rg e
  | .stop e => some (stopTracer st e)

def run (st : BlockCallsTracer) : List TraceEvent → Option BlockCallsTracer
  | [] => some st
  | e :: es => (step st e).bind fun st2 => run st2 es

/-! ## C7 -/

/-- C7, counterexample.  The claim "every malformed callback ordering is
absorbed as a no-op; the tracer never crashes the driving engine" fails for
`onLog` with no open frame: with log collection enabled, an `onLog` arriving
after `onTxEnd` has cleared the stack makes the Go code index
`t.callstack[len(t.callstack)-1]` with an empty slice — index `-1`, a
runtime panic (modelled `none`). -/
theorem c7_counterexample :
    run (initTracer false true)
      [.blockStart, .txStart 100,
       .enter 0 0xF1 1 2 [] 90 (some 5),
       .exit 0 [] 50 none false,
       .txEnd (some 50) none,
       .log 9 [] []] = none := by
  rfl

/-- C7, amended: the `onExit` malformations are indeed absorbed — an exit at
depth > 0 with zero or one open frames leaves the stack and the finished
trees untouched, and a (repeated) depth-0 exit while the stack does not hold
exactly one frame is a complete no-op — but `onLog` with no open frame is
*not* absorbed: with log collection enabled (and not blocked by
top-call-only or interruption) it crashes. -/
theorem c7_amended (st : BlockCallsTracer) :
    (∀ depth output gasUsed err rev, 0 < depth → st.callstack.length ≤ 1 →
      (onExit st depth output gasUsed err rev).callstack = st.callstack ∧
      (onExit st depth output gasUsed err rev).callstacks = st.callstacks) ∧
    (∀ output gasUsed err rev, st.callstack.length ≠ 1 →
      onExit st 0 output gasUsed err rev = st) ∧
    (st.withLog = true → ¬(st.onlyTopCall = true ∧ 0 < st.depth) →
      st.interrupt = false → st.callstack = [] →
      ∀ address topics data, onLog st address topics data = none) := by
  refine ⟨?_, ?_, ?_⟩
  · intro depth output gasUsed err rev hd hlen
    rw [onExit, if_neg (by omega)]
    by_cases hot : st.onlyTopCall
    · simp [hot]
    · simp [hot, hlen]
  · intro output gasUsed err rev hlen
    rw [onExit, if_pos rfl, captureEnd]
    cases hcs : st.callstack with
    | nil => rfl
    | cons f rest =>
      cases rest with
      | nil => exact absurd (by simp [hcs]) hlen
      | cons f2 rest2 => rfl
  · intro hwl hot hint hcs address topics data
    rw [onLog, if_neg (by simp [hwl]), if_neg hot, if_neg (by simp [hint]), hcs]
    rfl

/-- Witness for `c7_amended` at a concrete post-`onTxEnd` state. -/
theorem c7_amended_witness :
    ((0 : Nat) < 1 ∧ (initTracer false true).callstack.length ≤ 1 ∧
      (initTracer false true).callstack.length ≠ 1 ∧
      (initTracer false true).withLog = true ∧
      ¬((initTracer false true).onlyTopCall = true ∧ 0 < (initTracer false true).depth) ∧
      (initTracer false true).interrupt = false ∧
      (initTracer false true).callstack = ([] : List CallFrame)) ∧
    ((onExit (initTracer false true) 1 [] 5 none false).callstack =
        (initTracer false true).callstack ∧
      onExit (initTracer false true) 0 [] 5 none false = initTracer false true ∧
      onLog (initTracer false true) 9 [] [] = none) :=
  ⟨⟨by decide, by decide, by decide, by decide, by decide, by decide, rfl⟩,
   ⟨((c7_amended (initTracer false true)).1 1 [] 5 none false (by decide) (by decide)).1,
    (c7_amended (initTracer false true)).2.1 [] 5 none false (by decide),
    (c7_amended (initTracer false true)).2.2 (by decide) (by decide) (by decide)
      rfl 9 [] []⟩⟩

/-! ## C3 -/

/-- C3, counterexample.  The claim "after `stop(err)` no new frame is
captured by any subsequent `onEnter` in the same block, and `getResult()`
returns `err` even if further transactions start first" fails: `OnTxStart`
resets both the interruption flag and the reason (part_002 lines 157–158),
so after `stop`, a second transaction in the same block captures frames
again (here the stack has two frames: the dummy and the newly pushed root)
and `getResult` reports no error. -/
theorem c3_counterexample :
    ((run (initTracer false false)
        [.blockStart, .txStart 100,
         .enter 0 0xF1 1 2 [] 90 (some 5),
         .stop (some "boom")]).map
      (fun st => (st.interrupt, st.reason)) = some (true, some "boom")) ∧
    ((run (initTracer false false)
        [.blockStart, .txStart 100,
         .enter 0 0xF1 1 2 [] 90 (some 5),
         .stop (some "boom"),
         .exit 0 [] 10 none false,
         .txEnd (some 10) none,
         .txStart 100,
         .enter 0 0xF1 3 4 [] 90 (some 6)]).map
      (fun st => (st.callstack.length, st.interrupt, (getResult st).2)) =
      some (2, false, none)) := by
  exact ⟨rfl, rfl⟩

/-- C3, amended: while the interruption flag is set (i.e. after `stop(err)`
and before the next `onTxStart`/`onBlockStart`, both of which clear the flag
and the reason), `onEnter` captures no frame, `onLog` is a strict no-op,
already-open frames are still exited and popped normally by `onExit` (which
never consults the flag), and `getResult()` returns the stored reason. -/
theorem c3_amended (st : BlockCallsTracer) (e : String)
    (h1 : st.interrupt = true) (h2 : st.reason = some e) :
    (∀ depth typ fromAddr toAddr input gas value,
      (onEnter st depth typ fromAddr toAddr input gas value).callstack =
        st.callstack ∧
      (onEnter st depth typ fromAddr toAddr input gas value).callstacks =
        st.callstacks) ∧
    (∀ address topics data, onLog st address topics data = some st) ∧
    (getResult st).2 = some e ∧
    (∀ g, (onTxStart st g).interrupt = false ∧ (onTxStart st g).reason = none) ∧
    (∀ depth output gasUsed err rev, 0 < depth → st.onlyTopCall = false →
      1 < st.callstack.length →
      (onExit st depth output gasUsed err rev).callstack =
        modifyLast (fun parent => parent.addCall (processOutput
          ((st.callstack.getLast?.getD emptyCallFrame).setGasUsed gasUsed)
          output err rev)) st.callstack.dropLast) := by
  refine ⟨?_, ?_, ?_, ?_, ?_⟩
  · intro depth typ fromAddr toAddr input gas value
    rw [onEnter]
    by_cases hot : st.onlyTopCall ∧ 0 < depth
    · simp [hot]
    · simp [hot, h1]
  · intro address topics data
    rw [onLog]
    by_cases hwl : st.withLog
    · by_cases hot : st.onlyTopCall ∧ 0 < st.depth
      · simp [hwl, hot]
      · simp [hwl, hot, h1]
    · simp [hwl]
  · rw [getResult, h2]
  · intro g
    exact ⟨rfl, rfl⟩
  · intro depth output gasUsed err rev hd hot hlen
    rw [onExit, if_neg (by omega)]
    rw [if_neg (by simp [hot])]
    rw [if_neg (by simp; omega)]
    cases hcs : st.callstack.getLast? with
    | none =>
      rw [List.getLast?_eq_none_iff] at hcs
      rw [hcs] at hlen
      simp at hlen
    | some call => simp

/-- Witness for `c3_amended` at a concrete interrupted state. -/
theorem c3_amended_witness :
    ((stopTracer (onTxStart (initTracer false false) 100) (some "boom")).interrupt = true ∧
     (stopTracer (onTxStart (initTracer false false) 100) (some "boom")).reason = some "boom") ∧
    ((∀ address topics data,
        onLog (stopTracer (onTxStart (initTracer false false) 100) (some "boom"))
          address topics data =
          some (stopTracer (onTxStart (initTracer false false) 100) (some "boom"))) ∧
     (getResult (stopTracer (onTxStart (initTracer false false) 100) (some "boom"))).2 =
        some "boom") :=
  ⟨⟨rfl, rfl⟩,
   ⟨(c3_amended _ "boom" rfl rfl).2.1,
    (c3_amended _ "boom" rfl rfl).2.2.1⟩⟩

/-! ## Valid depth-first call sequences

A transaction's callbacks are generated from a tree of scopes: each scope
contributes its `onEnter` data, its children's events (depth + 1, stored
order), then its `onExit` data — the depth-first contract of §4.1/§6. -/

structure EnterData : Type where
  typ : Nat
  fromAddr : Nat
  toAddr : Nat
  input : List Nat
  gas : Nat
  value : Option Nat
deriving Repr

structure ExitData : Type where
  output : List Nat
  gasUsed : Nat
  err : Option String
  reverted : Bool
deriving Repr

inductive CTree : Type where
  | node (en : EnterData) (children : List CTree) (ex : ExitData)

theorem ctreeListInduction (P : CTree → Prop) (Q : List CTree → Prop)
    (hmk : ∀ en cs ex, Q cs → P (.node en cs ex))
    (hnil : Q [])
    (hcons : ∀ t l, P t → Q l → Q (t :: l)) :
    (∀ t, P t) ∧ (∀ l, Q l) := by
  have key : ∀ n, (∀ t : CTree, sizeOf t ≤ n → P t) ∧
      (∀ l : List CTree, sizeOf l ≤ n → Q l) := by
    intro n
    induction n with
    | zero =>
      constructor
      · intro t ht; cases t with
        | node en cs ex => simp at ht
      · intro l hl
        cases l with
        | nil => exact hnil
        | cons x xs => simp at hl
    | succ n ih =>
      constructor
      · intro t ht
        cases t with
        | node en cs ex =>
          apply hmk
          apply ih.2
          simp at ht
          omega
      · intro l hl
        cases l with
        | nil => exact hnil
        | cons x xs =>
          simp at hl
          exact hcons _ _ (ih.1 x (by omega)) (ih.2 xs (by omega))
  constructor
  · intro t; exact (key (sizeOf t)).1 t le_rfl
  · intro l; exact (key (sizeOf l)).2 l le_rfl

mutual

def eventsOfTree (d : Nat) : CTree → List TraceEvent
  | .node en cs ex =>
    .enter d en.typ en.fromAddr en.toAddr en.input en.gas en.value ::
      (eventsOfForest (d + 1) cs ++
        [.exit d ex.output ex.gasUsed ex.err ex.reverted])

def eventsOfForest (d : Nat) : List CTree → List TraceEvent
  | [] => []
  | t :: ts => eventsOfTree d t ++ eventsOfForest d ts

end

/-- One valid transaction: `onTxStart`, the root's events at depth 0, then
`onTxEnd`. -/
def txEvents (g : Nat) (t : CTree) (receiptGasUsed : Option Nat)
    (err : Option String) : List TraceEvent :=
  .txStart g :: (eventsOfTree 0 t ++ [.txEnd receiptGasUsed err])

mutual

/-- The finished frame a sub-root scope (depth ≥ 1) leaves in its parent's
`calls`: created at enter, children attached in order, `gasUsed` and output
state attached at exit. -/
def realizeSub : CTree → CallFrame
  | .node en cs ex =>
    processOutput
      (((CallFrame.mk en.typ en.fromAddr en.gas 0 (some en.toAddr) en.input []
          none none [] [] en.value).withCalls (realizeForest cs)).setGasUsed
        ex.gasUsed)
      ex.output ex.err ex.reverted

def realizeForest : List CTree → List CallFrame
  | [] => []
  | t :: ts => realizeSub t :: realizeForest ts

end

/-- The root frame as it sits on the stack after its depth-0 exit: gas is the
recorded transaction gas limit, and — because `captureEnd` requires a
one-element stack while this tracer's stack still holds the dummy frame —
its exit data (output, error, gasUsed) is never attached. -/
def realizeRoot (gasLimit : Nat) : CTree → CallFrame
  | .node en cs _ =>
    (CallFrame.mk en.typ en.fromAddr gasLimit 0 (some en.toAddr) en.input []
      none none [] [] en.value).withCalls (realizeForest cs)

/-- The per-transaction entry appended to `callstacks` by a successful
`onTxEnd`: the dummy frame (carrying the receipt's gasUsed, its logs scrubbed
when log collection is on) followed by the root frame. -/
def txFinalStack (withLog : Bool) (gasLimit receiptGasUsed : Nat) (t : CTree) :
    List CallFrame :=
  (if withLog then clearFailedLogs false (emptyCallFrame.setGasUsed receiptGasUsed)
   else emptyCallFrame.setGasUsed receiptGasUsed) :: [realizeRoot gasLimit t]

/-! ### Run lemmas -/

theorem run_append (st : BlockCallsTracer) (l1 l2 : List TraceEvent) :
    run st (l1 ++ l2) = (run st l1).bind fun st2 => run st2 l2 := by
  induction l1 generalizing st with
  | nil => simp [run]
  | cons e es ih =>
    simp only [List.cons_append, run]
    cases step st e with
    | none => simp
    | some st2 => simp [ih]

theorem modifyLast_concat {α : Type _} (g : α → α) (xs : List α) (a : α) :
    modifyLast g (xs ++ [a]) = xs ++ [g a] := by
  induction xs with
  | nil => rfl
  | cons x xs ih =>
    cases xs with
    | nil => rfl
    | cons y ys => simpa [modifyLast] using ih

theorem modifyLast_length {α : Type _} (g : α → α) (l : List α) :
    (modifyLast g l).length = l.length := by
  induction l with
  | nil => rfl
  | cons x xs ih =>
    cases xs with
    | nil => rfl
    | cons y ys => simpa [modifyLast] using ih

theorem modifyLast_cons_of_ne_nil {α : Type _} (g : α → α) (x : α) (l : List α)
    (h : l ≠ []) : modifyLast g (x :: l) = x :: modifyLast g l := by
  cases l with
  | nil => exact absurd rfl h
  | cons y ys => rfl

theorem modifyLast_ne_nil {α : Type _} (g : α → α) (l : List α) (h : l ≠ []) :
    modifyLast g l ≠ [] := by
  intro hnil
  have := modifyLast_length g l
  rw [hnil] at this
  cases l with
  | nil => exact h rfl
  | cons x xs => simp at this

theorem modifyLast_modifyLast {α : Type _} (g f : α → α) (l : List α) :
    modifyLast g (modifyLast f l) = modifyLast (fun a => g (f a)) l := by
  induction l with
  | nil => rfl
  | cons x xs ih =>
    cases xs with
    | nil => rfl
    | cons y ys =>
      rw [show modifyLast f (x :: y :: ys) = x :: modifyLast f (y :: ys) from rfl]
      rw [modifyLast_cons_of_ne_nil g x _ (modifyLast_ne_nil f _ (by simp))]
      rw [ih]
      rfl

theorem addCall_addCalls (p x : CallFrame) (ys : List CallFrame) :
    (p.addCall x).addCalls ys = p.addCalls (x :: ys) := by
  cases p with
  | mk t fa g gu ta i o e r cs ls v =>
    simp [CallFrame.addCall, CallFrame.addCalls, CallFrame.withCalls,
      CallFrame.calls]

theorem addCalls_nil (p : CallFrame) : p.addCalls [] = p := by
  cases p with
  | mk t fa g gu ta i o e r cs ls v =>
    simp [CallFrame.addCalls, CallFrame.withCalls, CallFrame.calls]

theorem modifyLast_addCalls_nil (l : List CallFrame) :
    modifyLast (fun p => p.addCalls []) l = l := by
  induction l with
  | nil => rfl
  | cons x xs ih =>
    cases xs with
    | nil => simp [modifyLast, addCalls_nil]
    | cons y ys =>
      rw [modifyLast_cons_of_ne_nil _ x _ (by simp), ih]

/-- Core induction: a subtree entered at depth `d + 1`, on an untroubled
tracer (top-call-only off, not interrupted) with at least one open frame,
runs to completion by appending its realized frame to the `calls` of the
frame that was on top. -/
theorem runSubtreeForest :
    (∀ (t : CTree) (d : Nat) (stks : List (List CallFrame))
      (stack : List CallFrame) (wl : Bool) (gl dep : Nat) (rsn : Option String),
      1 ≤ stack.length →
      run ⟨stks, stack, false, wl, gl, dep, false, rsn⟩ (eventsOfTree (d + 1) t) =
        some ⟨stks, modifyLast (fun p => p.addCall (realizeSub t)) stack,
          false, wl, gl, d, false, rsn⟩) ∧
    (∀ (cs : List CTree) (d : Nat) (stks : List (List CallFrame))
      (stack : List CallFrame) (wl : Bool) (gl dep : Nat) (rsn : Option String),
      1 ≤ stack.length →
      run ⟨stks, stack, false, wl, gl, dep, false, rsn⟩ (eventsOfForest (d + 1) cs) =
        some ⟨stks, modifyLast (fun p => p.addCalls (realizeForest cs)) stack,
          false, wl, gl, if cs.isEmpty then dep else d, false, rsn⟩) := by
  apply ctreeListInduction
  · intro en cs ex ihq d stks stack wl gl dep rsn hlen
    rw [eventsOfTree]
    have henter : step ⟨stks, stack, false, wl, gl, dep, false, rsn⟩
        (.enter (d + 1) en.typ en.fromAddr en.toAddr en.input en.gas en.value) =
        some ⟨stks, stack ++ [CallFrame.mk en.typ en.fromAddr en.gas 0
          (some en.toAddr) en.input [] none none [] [] en.value],
          false, wl, gl, d + 1, false, rsn⟩ := by
      show some (onEnter _ (d + 1) en.typ en.fromAddr en.toAddr en.input
        en.gas en.value) = _
      simp [onEnter]
    simp only [run, henter, Option.some_bind]
    rw [run_append]
    rw [ihq (d + 1) stks
      (stack ++ [CallFrame.mk en.typ en.fromAddr en.gas 0 (some en.toAddr)
        en.input [] none none [] [] en.value]) wl gl (d + 1) rsn (by simp)]
    simp only [Option.some_bind]
    rw [modifyLast_concat]
    have hexit : step ⟨stks, stack ++ [(CallFrame.mk en.typ en.fromAddr en.gas 0
          (some en.toAddr) en.input [] none none [] [] en.value).addCalls
            (realizeForest cs)], false, wl, gl,
          if cs.isEmpty then d + 1 else d + 1, false, rsn⟩
        (.exit (d + 1) ex.output ex.gasUsed ex.err ex.reverted) =
        some ⟨stks, modifyLast
          (fun p => p.addCall (realizeSub (.node en cs ex))) stack,
          false, wl, gl, d, false, rsn⟩ := by
      show some (onExit _ (d + 1) ex.output ex.gasUsed ex.err ex.reverted) = _
      have hgt : ¬((stack ++ [(CallFrame.mk en.typ en.fromAddr en.gas 0
          (some en.toAddr) en.input [] none none [] [] en.value).addCalls
            (realizeForest cs)]).length ≤ 1) := by
        simp only [List.length_append, List.length_singleton]
        omega
      simp only [onExit, if_neg (show ¬(d + 1 = 0) by omega)]
      simp only [hgt, if_false]
      simp only [List.getLast?_concat, List.dropLast_concat]
      simp only [Option.some.injEq]
      have hframe : processOutput (((CallFrame.mk en.typ en.fromAddr en.gas 0
          (some en.toAddr) en.input [] none none [] [] en.value).addCalls
            (realizeForest cs)).setGasUsed ex.gasUsed) ex.output ex.err
            ex.reverted = realizeSub (.node en cs ex) := by
        rw [realizeSub]
        simp [CallFrame.addCalls, CallFrame.withCalls, CallFrame.calls,
          CallFrame.setGasUsed]
      simp [hframe]
    rw [show run ⟨stks, stack ++ [(CallFrame.mk en.typ en.fromAddr en.gas 0
          (some en.toAddr) en.input [] none none [] [] en.value).addCalls
            (realizeForest cs)], false, wl, gl,
          if cs.isEmpty then d + 1 else d + 1, false, rsn⟩
        [TraceEvent.exit (d + 1) ex.output ex.gasUsed ex.err ex.reverted] =
      (step ⟨stks, stack ++ [(CallFrame.mk en.typ en.fromAddr en.gas 0
          (some en.toAddr) en.input [] none none [] [] en.value).addCalls
            (realizeForest cs)], false, wl, gl,
          if cs.isEmpty then d + 1 else d + 1, false, rsn⟩
        (.exit (d + 1) ex.output ex.gasUsed ex.err ex.reverted)).bind
          (fun st2 => some st2) from rfl]
    rw [hexit]
    rfl
  · intro d stks stack wl gl dep rsn hlen
    simp [run, eventsOfForest, realizeForest, modifyLast_addCalls_nil]
  · intro t ts iht ihts d stks stack wl gl dep rsn hlen
    rw [eventsOfForest, run_append]
    rw [iht d stks stack wl gl dep rsn hlen]
    simp only [Option.some_bind]
    rw [ihts d stks
      (modifyLast (fun p => p.addCall (realizeSub t)) stack) wl gl d rsn
      (by rw [modifyLast_length]; omega)]
    rw [modifyLast_modifyLast]
    have hfun : (fun (a : CallFrame) => CallFrame.addCalls
        (CallFrame.addCall a (realizeSub t)) (realizeForest ts)) =
        fun (p : CallFrame) => p.addCalls (realizeForest (t :: ts)) := by
      funext p
      rw [addCall_addCalls]
      rfl
    rw [hfun]
    cases hts : ts.isEmpty with
    | true => simp
    | false => simp

/-- Shared workhorse for the transaction-level statements: `onTxStart`
followed by a full depth-first tree of enter/exit callbacks leaves the stack
holding exactly the dummy frame and the realized root. -/
theorem runTxPrefix (cstks : List (List CallFrame)) (cstack : List CallFrame)
    (wl : Bool) (gl dep : Nat) (intr : Bool) (rsn : Option String)
    (g : Nat) (en : EnterData) (cs : List CTree) (ex : ExitData) :
    run ⟨cstks, cstack, false, wl, gl, dep, intr, rsn⟩
      (.txStart g :: eventsOfTree 0 (.node en cs ex)) =
      some ⟨cstks, [emptyCallFrame, realizeRoot g (.node en cs ex)],
        false, wl, g, 0, false, none⟩ := by
  simp only [run]
  rw [show step ⟨cstks, cstack, false, wl, gl, dep, intr, rsn⟩ (.txStart g) =
    some ⟨cstks, [emptyCallFrame], false, wl, g, 0, false, none⟩ from rfl]
  simp only [Option.some_bind]
  rw [show step ⟨cstks, [emptyCallFrame], false, wl, g, 0, false, none⟩
      (.enter 0 en.typ en.fromAddr en.toAddr en.input en.gas en.value) =
      some ⟨cstks, [emptyCallFrame, CallFrame.mk en.typ en.fromAddr g 0
        (some en.toAddr) en.input [] none none [] [] en.value],
        false, wl, g, 0, false, none⟩ from by
    show some (onEnter _ 0 en.typ en.fromAddr en.toAddr en.input en.gas
      en.value) = _
    simp [onEnter]]
  simp only [Option.some_bind]
  rw [run_append]
  rw [runSubtreeForest.2 cs 0 cstks
    [emptyCallFrame, CallFrame.mk en.typ en.fromAddr g 0 (some en.toAddr)
      en.input [] none none [] [] en.value] wl g 0 none (by simp)]
  simp only [Option.some_bind]
  rw [show modifyLast (fun p => p.addCalls (realizeForest cs))
      [emptyCallFrame, CallFrame.mk en.typ en.fromAddr g 0 (some en.toAddr)
        en.input [] none none [] [] en.value] =
      [emptyCallFrame, realizeRoot g (.node en cs ex)] from by
    rw [show realizeRoot g (.node en cs ex) = (CallFrame.mk en.typ en.fromAddr
      g 0 (some en.toAddr) en.input [] none none [] [] en.value).withCalls
        (realizeForest cs) from rfl]
    simp [modifyLast, CallFrame.addCalls, CallFrame.calls]]
  rw [ite_self]
  simp only [run]
  rw [show step ⟨cstks, [emptyCallFrame, realizeRoot g (.node en cs ex)],
      false, wl, g, 0, false, none⟩
      (.exit 0 ex.output ex.gasUsed ex.err ex.reverted) =
      some ⟨cstks, [emptyCallFrame, realizeRoot g (.node en cs ex)],
        false, wl, g, 0, false, none⟩ from by
    show some (onExit _ 0 ex.output ex.gasUsed ex.err ex.reverted) = _
    rw [onExit, if_pos rfl, captureEnd]]
  simp only [Option.some_bind, run]

/-- C5, counterexample.  The claim "after the matching `onTxEnd` the open
frame stack is empty (with one tree appended on success, zero on error)"
fails in the error case: `OnTxEnd` with a non-nil error returns immediately
without clearing `t.callstack`, so right after it the stack still holds the
two in-progress frames (it is only discarded by the *next* `OnTxStart`). -/
theorem c5_counterexample :
    (run (initTracer false false)
      [.blockStart, .txStart 100,
       .enter 0 0xF1 1 2 [] 90 (some 5),
       .exit 0 [] 10 none false,
       .txEnd (some 10) (some "bad")]).map
      (fun st => (st.callstack.length, st.callstacks.length)) = some (2, 0) := by
  rfl

/-- C5, amended: for every valid depth-first enter/exit sequence on a tracer
with top-call-only off: after a successful `onTxEnd` the open-frame stack is
empty and exactly one entry (the dummy frame plus the realized root) was
appended to the block's tree list; after an `onTxEnd` carrying a non-nil
error nothing is appended, the transaction contributes no trace output, and
the open-frame stack is *not* cleared — it still holds the in-progress
frames until the next `onTxStart`. -/
theorem c5_amended (st : BlockCallsTracer) (hot : st.onlyTopCall = false)
    (g rg : Nat) (t : CTree) :
    (run st (txEvents g t (some rg) none) =
      some ⟨st.callstacks ++ [txFinalStack st.withLog g rg t], [],
        false, st.withLog, g, 0, false, none⟩) ∧
    (∀ e : String, run st (txEvents g t (some rg) (some e)) =
      some ⟨st.callstacks, [emptyCallFrame, realizeRoot g t],
        false, st.withLog, g, 0, false, none⟩) := by
  obtain ⟨cstks, cstack, ot, wl, gl, dep, intr, rsn⟩ := st
  have hot2 : ot = false := hot
  subst hot2
  obtain ⟨en, cs, ex⟩ := t
  have hsplit : ∀ (rge : Option Nat) (er : Option String),
      txEvents g (.node en cs ex) rge er =
      (TraceEvent.txStart g :: eventsOfTree 0 (.node en cs ex)) ++
        [.txEnd rge er] := by
    intro rge er
    rfl
  constructor
  · rw [hsplit, run_append, runTxPrefix]
    simp only [Option.some_bind, run]
    rw [show step ⟨cstks, [emptyCallFrame, realizeRoot g (.node en cs ex)],
        false, wl, g, 0, false, none⟩ (.txEnd (some rg) none) =
        some ⟨cstks ++ [txFinalStack wl g rg (.node en cs ex)], [],
          false, wl, g, 0, false, none⟩ from by
      show onTxEnd _ (some rg) none = _
      rw [onTxEnd]
      cases wl <;> simp [txFinalStack]]
    rfl
  · intro e
    rw [hsplit, run_append, runTxPrefix]
    simp only [Option.some_bind, run]
    rw [show step ⟨cstks, [emptyCallFrame, realizeRoot g (.node en cs ex)],
        false, wl, g, 0, false, none⟩ (.txEnd (some rg) (some e)) =
        some ⟨cstks, [emptyCallFrame, realizeRoot g (.node en cs ex)],
          false, wl, g, 0, false, none⟩ from by
      show onTxEnd _ (some rg) (some e) = _
      rw [onTxEnd]
      rfl]
    rfl

/-- Witness for `c5_amended` at a concrete one-child transaction. -/
theorem c5_amended_witness :
    ((initTracer false false).onlyTopCall = false) ∧
    ((run (initTracer false false)
        (txEvents 100 (.node ⟨0xF1, 1, 2, [], 90, some 5⟩
          [.node ⟨0xF1, 2, 3, [], 50, some 1⟩ [] ⟨[], 20, none, false⟩]
          ⟨[], 60, none, false⟩) (some 60) none) =
      some ⟨(initTracer false false).callstacks ++
          [txFinalStack (initTracer false false).withLog 100 60
            (.node ⟨0xF1, 1, 2, [], 90, some 5⟩
              [.node ⟨0xF1, 2, 3, [], 50, some 1⟩ [] ⟨[], 20, none, false⟩]
              ⟨[], 60, none, false⟩)], [],
          false, (initTracer false false).withLog, 100, 0, false, none⟩) ∧
    (∀ e : String, run (initTracer false false)
        (txEvents 100 (.node ⟨0xF1, 1, 2, [], 90, some 5⟩
          [.node ⟨0xF1, 2, 3, [], 50, some 1⟩ [] ⟨[], 20, none, false⟩]
          ⟨[], 60, none, false⟩) (some 60) (some e)) =
      some ⟨(initTracer false false).callstacks,
          [emptyCallFrame, realizeRoot 100
            (.node ⟨0xF1, 1, 2, [], 90, some 5⟩
              [.node ⟨0xF1, 2, 3, [], 50, some 1⟩ [] ⟨[], 20, none, false⟩]
              ⟨[], 60, none, false⟩)],
          false, (initTracer false false).withLog, 100, 0, false, none⟩)) :=
  ⟨rfl, c5_amended (initTracer false false) rfl 100 60 _⟩

/-! ## Whole-block runs and the export composition (C8) -/

/-- One transaction as the engine presents it to the tracer: gas limit, the
depth-first tree of scopes, the receipt's gasUsed, and the `onTxEnd`
validation error (non-nil means the transaction failed validation). -/
structure TxSpec : Type where
  gasLimit : Nat
  tree : CTree
  receiptGasUsed : Nat
  err : Option String

def txsEvents : List TxSpec → List TraceEvent
  | [] => []
  | tx :: rest =>
    txEvents tx.gasLimit tx.tree (some tx.receiptGasUsed) tx.err ++ txsEvents rest

def blockEvents (txs : List TxSpec) : List TraceEvent :=
  .blockStart :: txsEvents txs

/-- The per-transaction entries the tracer accumulates over a block: one for
each transaction whose `onTxEnd` carried no error, in transaction order. -/
def blockStacks (wl : Bool) : List TxSpec → List (List CallFrame)
  | [] => []
  | tx :: rest =>
    (match tx.err with
     | none => [txFinalStack wl tx.gasLimit tx.receiptGasUsed tx.tree]
     | some _ => []) ++ blockStacks wl rest

theorem blockStacks_allSuccess (wl : Bool) :
    ∀ txs : List TxSpec, (∀ tx ∈ txs, tx.err = none) →
      blockStacks wl txs =
        txs.map (fun tx => txFinalStack wl tx.gasLimit tx.receiptGasUsed tx.tree) := by
  intro txs
  induction txs with
  | nil => intro _; rfl
  | cons tx rest ih =>
    intro hs
    have h0 : tx.err = none := hs tx (by simp)
    simp only [blockStacks, h0, List.map_cons, ih (fun t ht => hs t (by simp [ht]))]
    rfl

theorem runTxs : ∀ (txs : List TxSpec) (cstks : List (List CallFrame))
    (cstack : List CallFrame) (wl : Bool) (gl dep : Nat) (intr : Bool)
    (rsn : Option String),
    (run ⟨cstks, cstack, false, wl, gl, dep, intr, rsn⟩ (txsEvents txs)).map
      (fun st => st.callstacks) = some (cstks ++ blockStacks wl txs) := by
  intro txs
  induction txs with
  | nil =>
    intro cstks cstack wl gl dep intr rsn
    simp [txsEvents, run, blockStacks]
  | cons tx rest ih =>
    intro cstks cstack wl gl dep intr rsn
    rw [txsEvents, run_append]
    cases herr : tx.err with
    | none =>
      have h1 := (c5_amended ⟨cstks, cstack, false, wl, gl, dep, intr, rsn⟩ rfl
        tx.gasLimit tx.receiptGasUsed tx.tree).1
      rw [h1]
      simp only [Option.some_bind]
      rw [ih]
      simp [blockStacks, herr]
    | some e =>
      have h2 := (c5_amended ⟨cstks, cstack, false, wl, gl, dep, intr, rsn⟩ rfl
        tx.gasLimit tx.receiptGasUsed tx.tree).2 e
      rw [h2]
      simp only [Option.some_bind]
      rw [ih]
      simp [blockStacks, herr]

theorem extractFrames_fields (blockNumber : Int) (bh h : Nat) (ths : List Nat)
    (ti : Nat) (hh : ths[ti]? = some h) :
    ∀ fs : List CallFrame0, (∀ f ∈ fs, wfFrame f = true) →
      ∃ rows, extractFrames blockNumber bh ths ti fs = some rows ∧
        ∀ r ∈ rows, r.txIndex = ti ∧ r.txHash = h := by
  intro fs
  induction fs with
  | nil => exact fun _ => ⟨[], rfl, by simp⟩
  | cons f fs ih =>
    intro hwf
    obtain ⟨rows2, hrun2, hmem2⟩ := ih (fun f2 hf2 => hwf f2 (by simp [hf2]))
    have hnav := navigateCallFrame_eq_rowsFor blockNumber bh h ths ti hh f
      (hwf f (by simp)) 0
    simp only [extractFrames, hnav, hrun2]
    refine ⟨_, rfl, ?_⟩
    intro r hr
    rcases List.mem_append.mp hr with hr1 | hr2
    · obtain ⟨g, hg, k, rfl⟩ := mem_rowsFor blockNumber bh h ti _ 0 r hr1
      exact ⟨rfl, rfl⟩
    · exact hmem2 r hr2

theorem extractStacks_fields (blockNumber : Int) (bh : Nat) (ths : List Nat) :
    ∀ (decoded : List (List CallFrame0)) (ix : Nat),
      (∀ s ∈ decoded, ∀ f ∈ s, wfFrame f = true) →
      (∀ i, i < decoded.length → ∃ h, ths[ix + i]? = some h) →
      ∃ rows, extractStacksFrom blockNumber bh ths ix decoded = some rows ∧
        ∀ r ∈ rows, ix ≤ r.txIndex ∧ r.txIndex < ix + decoded.length ∧
          ths[r.txIndex]? = some r.txHash := by
  intro decoded
  induction decoded with
  | nil => intro ix _ _; exact ⟨[], rfl, by simp⟩
  | cons s ss ih =>
    intro ix hwf hh
    obtain ⟨h0, hh0⟩ := hh 0 (by simp)
    rw [show ix + 0 = ix by omega] at hh0
    obtain ⟨rows1, hrun1, hmem1⟩ :=
      extractFrames_fields blockNumber bh h0 ths ix hh0 s (hwf s (by simp))
    obtain ⟨rows2, hrun2, hmem2⟩ := ih (ix + 1)
      (fun s2 hs2 => hwf s2 (by simp [hs2]))
      (fun i hi => by
        obtain ⟨h2, hh2⟩ := hh (i + 1) (by simp; omega)
        exact ⟨h2, by rw [show ix + 1 + i = ix + (i + 1) by omega]; exact hh2⟩)
    simp only [extractStacksFrom, hrun1, hrun2]
    refine ⟨_, rfl, ?_⟩
    intro r hr
    rcases List.mem_append.mp hr with h1 | h2
    · obtain ⟨hti, hth⟩ := hmem1 r h1
      refine ⟨by omega, by simp [hti], ?_⟩
      rw [hti, hh0, hth]
    · obtain ⟨hge, hlt, hth⟩ := hmem2 r h2
      refine ⟨by omega, by simp at hlt ⊢; omega, hth⟩

/-! ## C8 -/

def cexTreeTxA : CTree := .node ⟨0xF1, 1, 2, [], 90, some 5⟩ [] ⟨[], 10, none, false⟩
def cexTreeTxB : CTree := .node ⟨0xF1, 3, 4, [], 90, some 7⟩ [] ⟨[], 10, none, false⟩

/-- A transaction that fails validation (its hash will be `txHashes[0] = 10`). -/
def cexTxA : TxSpec := ⟨100, cexTreeTxA, 10, some "invalid"⟩

/-- A successful transaction (its hash will be `txHashes[1] = 20`). -/
def cexTxB : TxSpec := ⟨100, cexTreeTxB, 10, none⟩

/-- C8, counterexample.  The claim "the hash looked up by the record's
txIndex identifies the transaction whose tree produced the record, including
for blocks in which some transaction failed validation and contributed no
tree" fails: in a block whose first transaction (hash 10) fails validation
and whose second (hash 20) succeeds, the tracer stores only one tree — the
second transaction's (root `from` = 3) — at tree index 0, and the extractor
stamps its record with `block.Transactions()[0]`, i.e. hash 10, the *failed*
transaction's hash. -/
theorem c8_counterexample :
    ((run (initTracer false false) (blockEvents [cexTxA, cexTxB])).map
      (fun st => st.callstacks) = some [txFinalStack false 100 10 cexTreeTxB]) ∧
    decodeTrace (encodeTrace [txFinalStack false 100 10 cexTreeTxB]) =
      some (projTrace [txFinalStack false 100 10 cexTreeTxB]) ∧
    extractTrace 5 6 [10, 20] (projTrace [txFinalStack false 100 10 cexTreeTxB]) =
      some [{ txHash := 10, blockNumber := 5, blockHash := 6, txIndex := 0,
              callIndex := 0, fromAddr := 3, toAddr := 4,
              value := hexStringOfNat 7 }] ∧
    (10 : Nat) ≠ 20 := by
  refine ⟨rfl, ?_, ?_, by decide⟩
  · apply decodeTrace_encodeTrace
    intro s hs
    simp at hs
    subst hs
    simp [txFinalStack, wfBoundsList, wfBounds, realizeRoot, realizeForest,
      emptyCallFrame, CallFrame.setGasUsed, CallFrame.withCalls, cexTreeTxB]
  · have hproj : projTrace [txFinalStack false 100 10 cexTreeTxB] =
        [[CallFrame0.mk 0 none [] none (opCodeString 0),
          CallFrame0.mk 3 (some 4) [] (some 7) (opCodeString 0xF1)]] := by
      simp [projTrace, projFrames, projFrame, txFinalStack, realizeRoot,
        realizeForest, emptyCallFrame, CallFrame.setGasUsed, CallFrame.withCalls,
        cexTreeTxB]
    rw [hproj]
    simp [extractTrace, extractStacksFrom, extractFrames, navigateCallFrame,
      navigateCalls, opCodeString]

/-- C8, amended: `txIndex` is the record's tree index in the decoded trace,
and `txHash` is `block.Transactions()[txIndex]`, the hash at that position of
the block's *full* transaction list.  These identify the transaction that
produced the record exactly when every transaction of the block contributed
a tree (no validation failures): then tree `i` is precisely the realized
stack of transaction `i`.  When a transaction fails validation and
contributes no tree, later trees shift down and the lookup names the wrong
transaction (see the counterexample). -/
theorem c8_amended (txs : List TxSpec) (hsucc : ∀ tx ∈ txs, tx.err = none)
    (blockNumber : Int) (bh : Nat) (txHashes : List Nat) (wl : Bool)
    (hb : ∀ s ∈ blockStacks wl txs, wfBoundsList s = true)
    (hwf : ∀ s ∈ projTrace (blockStacks wl txs), ∀ f ∈ s, wfFrame f = true)
    (hh : ∀ i, i < txs.length → ∃ h, txHashes[i]? = some h) :
    ((run (initTracer false wl) (blockEvents txs)).map (fun st => st.callstacks) =
      some (blockStacks wl txs)) ∧
    blockStacks wl txs =
      txs.map (fun tx => txFinalStack wl tx.gasLimit tx.receiptGasUsed tx.tree) ∧
    decodeTrace (encodeTrace (blockStacks wl txs)) =
      some (projTrace (blockStacks wl txs)) ∧
    ∃ rows, extractTrace blockNumber bh txHashes
        (projTrace (blockStacks wl txs)) = some rows ∧
      ∀ r ∈ rows, r.txIndex < txs.length ∧
        txHashes[r.txIndex]? = some r.txHash := by
  refine ⟨?_, blockStacks_allSuccess wl txs hsucc,
    decodeTrace_encodeTrace _ hb, ?_⟩
  · rw [blockEvents]
    simp only [run]
    rw [show step (initTracer false wl) .blockStart =
      some ⟨[], [], false, wl, 0, 0, false, none⟩ from rfl]
    simp only [Option.some_bind]
    simpa using runTxs txs [] [] wl 0 0 false none
  · have hlen2 : (blockStacks wl txs).length = txs.length := by
      rw [blockStacks_allSuccess wl txs hsucc]
      simp
    obtain ⟨rows, hrun, hmem⟩ := extractStacks_fields blockNumber bh txHashes
      (projTrace (blockStacks wl txs)) 0 hwf
      (fun i hi => by
        simp only [Nat.zero_add]
        apply hh
        simp [projTrace] at hi
        omega)
    refine ⟨rows, hrun, ?_⟩
    intro r hr
    obtain ⟨-, hlt, hth⟩ := hmem r hr
    refine ⟨?_, hth⟩
    simp [projTrace] at hlt
    omega

/-- Witness for `c8_amended` at a one-transaction all-success block. -/
theorem c8_amended_witness :
    ((∀ tx ∈ [cexTxB], tx.err = none) ∧
     (∀ s ∈ blockStacks false [cexTxB], wfBoundsList s = true) ∧
     (∀ s ∈ projTrace (blockStacks false [cexTxB]), ∀ f ∈ s, wfFrame f = true) ∧
     (∀ i, i < ([cexTxB] : List TxSpec).length → ∃ h, ([20] : List Nat)[i]? = some h)) ∧
    (((run (initTracer false false) (blockEvents [cexTxB])).map
        (fun st => st.callstacks) = some (blockStacks false [cexTxB])) ∧
     blockStacks false [cexTxB] =
      ([cexTxB] : List TxSpec).map
        (fun tx => txFinalStack false tx.gasLimit tx.receiptGasUsed tx.tree) ∧
     decodeTrace (encodeTrace (blockStacks false [cexTxB])) =
      some (projTrace (blockStacks false [cexTxB])) ∧
     ∃ rows, extractTrace 5 6 [20] (projTrace (blockStacks false [cexTxB])) =
        some rows ∧
      ∀ r ∈ rows, r.txIndex < ([cexTxB] : List TxSpec).length ∧
        ([20] : List Nat)[r.txIndex]? = some r.txHash) := by
  have hb : ∀ s ∈ blockStacks false [cexTxB], wfBoundsList s = true := by
    intro s hs
    simp [blockStacks, cexTxB] at hs
    subst hs
    simp [txFinalStack, wfBoundsList, wfBounds, realizeRoot, realizeForest,
      emptyCallFrame, CallFrame.setGasUsed, CallFrame.withCalls, cexTreeTxB]
  have hwf : ∀ s ∈ projTrace (blockStacks false [cexTxB]), ∀ f ∈ s,
      wfFrame f = true := by
    intro s hs f hf
    simp [projTrace, blockStacks, cexTxB, projFrames, projFrame, txFinalStack,
      realizeRoot, realizeForest, emptyCallFrame, CallFrame.setGasUsed,
      CallFrame.withCalls, cexTreeTxB, opCodeString] at hs
    subst hs
    simp at hf
    rcases hf with hf | hf <;> subst hf <;>
      simp [wfFrame, wfFrames, opCodeString]
  have hh : ∀ i, i < ([cexTxB] : List TxSpec).length →
      ∃ h, ([20] : List Nat)[i]? = some h := by
    intro i hi
    simp at hi
    subst hi
    exact ⟨20, rfl⟩
  exact ⟨⟨by simp [cexTxB], hb, hwf, hh⟩,
    c8_amended [cexTxB] (by simp [cexTxB]) 5 6 [20] false hb hwf hh⟩

/-! ## The export hook (`blockImportHook`, db_export.go lines 61–97) -/

/-- A database write attempted by the export hook.  `withTrace` distinguishes
the four-column `block_data` insert `(number, hash, block_data, trace_data)`
of line 70 from the three-column one of line 89. -/
inductive DbOp : Type where
  | insertBlockRow (number : Int) (hash : Nat) (blockJson : String)
      (withTrace : Bool)
  | insertInternalTx (row : InternalTx)
deriving DecidableEq, Repr

/-- Observable outcome of a hook invocation that returned: the database
writes it attempted, in order, and the error-log lines it produced.  The Go
function's literal return value is always `nil` (line 96), so the returned
map carries no information and is not modelled. -/
structure HookResult : Type where
  ops : List DbOp
  logs : List String
deriving DecidableEq, Repr

/-- The `traceData` byte slice, abstracted at the two points the hook
inspects it: whether `len(traceData) != 0`, and what `json.Unmarshal`
makes of it.  A non-empty byte slice is carried as the JSON tree the bytes
parse to; `json.Unmarshal` into `[][]callFrame0` is then `decodeTrace` on
that tree, whose `none` outcome covers the structurally invalid inputs. -/
inductive TraceData : Type where
  | empty
  | present (j : Json)

/-- Log output of a `block_data` insert outcome: lines 72–74 and 92–94 both
log `Failed to insert block data` when the pending error is non-nil. -/
def blockRowLog : Option String → List String
  | some _ => ["Failed to insert block data"]
  | none => []

/-- Log lines of the extraction loop: `navigateCallFrame` logs one
`Failed to insert internal transaction` line per failing insert, in emission
order (db_export.go lines 53–55).  `err i` is the database error of the i-th
internal-transaction insert. -/
def insertItxLogs (err : Nat → Option String) (rows : List InternalTx) :
    List String :=
  (List.range rows.length).filterMap fun i =>
    (err i).map fun _ => "Failed to insert internal transaction"

/-- Shallow embedding of `blockImportHook` (db_export.go lines 61–97).

`marshal` is the outcome of `json.Marshal(ethapi.RPCMarshalBlockEx(...))` at
lines 62–63, taken as an input because `RPCMarshalBlockEx` lives outside this
repository; its `.ok` payload is the marshalled block document.  `dbErr n` is
the error returned by the n-th `explorerDb.Exec` call of this invocation:
the `block_data` insert is call 0 and internal-transaction inserts follow in
emission order.  The overall `none` is the Go panic inside
`navigateCallFrame` when a qualifying-so-far frame has a nil `Value` or
`tx_index` falls outside `block.Transactions()`; in every other case the
hook runs to its `return nil`, modelled as `some` of its observable effects.

The code shares one `err` variable: after a failed `json.Unmarshal` at
line 77, the check at line 92 still sees that error and logs a second
`Failed to insert block data` line; after a successful unmarshal, line 77
overwrote any insert error with nil, so line 92 logs nothing.  The model
reproduces both behaviours. -/
def blockImportHook (marshal : Except String String) (number : Int)
    (hash : Nat) (txHashes : List Nat) (trace : TraceData)
    (dbErr : Nat → Option String) : Option HookResult :=
  match marshal with
  | .error _ => some ⟨[], ["Failed to marshal block data"]⟩
  | .ok jsonData =>
    match trace with
    | .empty =>
      some ⟨[.insertBlockRow number hash jsonData false],
        blockRowLog (dbErr 0)⟩
    | .present j =>
      match decodeTrace j with
      | none =>
        some ⟨[.insertBlockRow number hash jsonData true],
          blockRowLog (dbErr 0) ++
            ["Failed to unmarshal trace data",
             "Failed to insert block data"]⟩
      | some callstacks =>
        match extractTrace number hash txHashes callstacks with
        | none => none
        | some rows =>
          some ⟨.insertBlockRow number hash jsonData true ::
              rows.map .insertInternalTx,
            blockRowLog (dbErr 0) ++
              insertItxLogs (fun i => dbErr (i + 1)) rows⟩

/-- C9: for every exported block whose block document marshals, (a) if the
trace bytes are empty the hook attempts exactly the three-column block row
insert — no trace column, no internal-transaction insert, extraction never
invoked — and returns normally whatever the insert outcome; (b) if the trace
bytes are non-empty but structurally invalid (`json.Unmarshal` fails) the
block row is still inserted (with the trace column), the decode error is
logged (`Failed to unmarshal trace data`), zero internal-transaction rows
are attempted, and the hook returns normally; (c) decode and insert failures
never propagate: for any trace input on which the extraction loop itself does
not panic, the hook returns normally regardless of every database error. -/
theorem c9_confirmed (number : Int) (hash : Nat) (txHashes : List Nat)
    (js : String) (dbErr : Nat → Option String) :
    (blockImportHook (.ok js) number hash txHashes .empty dbErr =
      some ⟨[.insertBlockRow number hash js false], blockRowLog (dbErr 0)⟩) ∧
    (∀ j, decodeTrace j = none →
      blockImportHook (.ok js) number hash txHashes (.present j) dbErr =
        some ⟨[.insertBlockRow number hash js true],
          blockRowLog (dbErr 0) ++
            ["Failed to unmarshal trace data",
             "Failed to insert block data"]⟩) ∧
    (∀ trace : TraceData,
      (∀ j callstacks, trace = .present j → decodeTrace j = some callstacks →
        (extractTrace number hash txHashes callstacks).isSome) →
      (blockImportHook (.ok js) number hash txHashes trace dbErr).isSome) := by
  refine ⟨rfl, ?_, ?_⟩
  · intro j hj
    simp [blockImportHook, hj]
  · intro trace hsafe
    cases trace with
    | empty => simp [blockImportHook]
    | present j =>
      cases hd : decodeTrace j with
      | none => simp [blockImportHook, hd]
      | some callstacks =>
        have hx := hsafe j callstacks rfl hd
        cases he : extractTrace number hash txHashes callstacks with
        | none => rw [he] at hx; simp at hx
        | some rows => simp [blockImportHook, hd, he]

/-- Closed witness for `c9_confirmed`: a block numbered 5 with hash 6 and no
transactions, marshalled document `"x"`, every database insert failing.
Empty trace bytes, a structurally invalid trace (a JSON string where an
array of stacks is expected), and a decodable trace (the empty array) all
make the hook return normally with the predicted writes and logs. -/
theorem c9_confirmed_witness :
    (blockImportHook (.ok "x") 5 6 [] .empty (fun _ => some "boom") =
      some ⟨[.insertBlockRow 5 6 "x" false],
        ["Failed to insert block data"]⟩) ∧
    (blockImportHook (.ok "x") 5 6 [] (.present (.str "bad"))
        (fun _ => some "boom") =
      some ⟨[.insertBlockRow 5 6 "x" true],
        ["Failed to insert block data", "Failed to unmarshal trace data",
         "Failed to insert block data"]⟩) ∧
    (blockImportHook (.ok "x") 5 6 [] (.present (.arr []))
        (fun _ => some "boom")).isSome := by
  obtain ⟨h1, h2, h3⟩ := c9_confirmed 5 6 [] "x" (fun _ => some "boom")
  refine ⟨?_, ?_, ?_⟩
  · rw [h1]; rfl
  · have hd : decodeTrace (Json.str "bad") = none := rfl
    rw [h2 (Json.str "bad") hd]; rfl
  · refine h3 (.present (.arr [])) ?_
    intro j callstacks hj hcs
    cases hj
    have : decodeTrace (Json.arr []) = some [] := by
      simp [decodeTrace, decodeStacks]
    rw [this] at hcs
    cases hcs
    simp [extractTrace, extractStacksFrom]

/-- C10: if JSON-marshalling the block document fails, the hook logs
`Failed to marshal block data` and returns normally (its literal
`return nil` at line 66), having attempted no database write at all —
no block row and no internal-transaction row, for every block and every
trace input. -/
theorem c10_confirmed (e : String) (number : Int) (hash : Nat)
    (txHashes : List Nat) (trace : TraceData)
    (dbErr : Nat → Option String) :
    blockImportHook (.error e) number hash txHashes trace dbErr =
      some ⟨[], ["Failed to marshal block data"]⟩ := rfl

end Metadium
